import Mathlib

/-!
Shallow embedding of the `rx` terminal file explorer (Rust) and proofs about
its navigation engine: the directory lister, the prompt/mode state machine,
the undo/redo operation journal with directory snapshotting, and the
viewport controller.

Conventions of the embedding:
* a filesystem name (one path component) is a `List Char`; an absolute or
  relative path (`PathBuf`) is a `List Name` of components;
* fallible filesystem calls (`std::fs`) are modelled by oracle values of
  type `Except Err _` passed to each operation: the operation consumes the
  outcome at exactly the program point where the source performs the call,
  so the sequencing of in-memory mutations around a failing call is
  preserved faithfully;
* `usize` arithmetic that cannot underflow in the source is `Nat`
  arithmetic; `saturating_sub` is truncated `Nat` subtraction;
* `Vec`, `String` and `HashMap` are `List`s (a `HashMap` is an association
  list with first-match lookup).
-/

namespace Rx

/-- One path component, as produced by `file_name().to_string_lossy()`. -/
abbrev Name := List Char

/-- A `PathBuf`, as a list of components. -/
abbrev FilePath := List Name

/-- Error values of `error.rs` (`ExplorerError`); the payloads are irrelevant
to control flow, so each variant is a bare constructor. -/
inductive Err where
  | ioError
  | config
  | operationFailed
  | luaError
  | other
  | noLuaScript
  deriving DecidableEq, Repr

/-- Rust `Path::parent()`: `none` for an empty (root-like) path, otherwise
the path with the last component dropped. -/
def pathParent (p : FilePath) : Option FilePath :=
  match p with
  | [] => none
  | _ :: _ => some p.dropLast

/-- Rust `char::to_lowercase` restricted to its ASCII behaviour. -/
def charLower (c : Char) : Char := c.toLower

/-- Rust `str::to_lowercase` on a name. -/
def strLower (s : List Char) : List Char := s.map charLower

/-- Boolean test that `pre` is a leading segment of `l`. -/
def startsWithB : List Char → List Char → Bool
  | [], _ => true
  | _ :: _, [] => false
  | a :: as, b :: bs => a = b && startsWithB as bs

/-- Rust `str::contains(needle)`: substring containment. -/
def containsSub : List Char → List Char → Bool
  | hay, needle =>
    if startsWithB needle hay then true
    else
      match hay with
      | [] => false
      | _ :: t => containsSub t needle

/-- Rust `file_name().unwrap_or_default()`: the last component of the path,
or the empty name when there is none. -/
def fileName (p : FilePath) : Name := (p.getLast?).getD []

/-- Lexicographic Boolean `≤` on char lists, by code point, matching Rust
`String` ordering used by `sort_by_key`. -/
def lexLeB : List Char → List Char → Bool
  | [], _ => true
  | _ :: _, [] => false
  | a :: as, b :: bs =>
    if a < b then true
    else if b < a then false
    else lexLeB as bs

/-! ## Modes and the prompt (`modes.rs`, `prompt.rs`) -/

/-- The `Mode` enum of `modes.rs`. -/
inductive Mode where
  | normal
  | search
  | create
  | rename
  deriving DecidableEq, Repr

/-- The `Operation` enum of `history.rs`.  A directory backup `DirBackup`
is a map from subtree-relative path to file bytes plus the list of every
(possibly empty) subdirectory, both as association lists. -/
structure DirBackup where
  files : List (FilePath × List Nat)
  dirs : List FilePath
  deriving DecidableEq, Repr

/-- One recorded reversible operation (`history.rs`). -/
inductive Operation where
  | delete (path : FilePath) (isDir : Bool) (content : Option (List Nat))
      (position : Nat) (dirBackup : Option DirBackup)
  | create (path : FilePath) (isDir : Bool)
  | rename (oldPath : FilePath) (newPath : FilePath)
  deriving DecidableEq, Repr

/-- The `ModeAction` enum of `modes.rs`. -/
inductive ModeAction where
  | select (index : Nat)
  | createEntry (op : Operation)
  | renameEntry (op : Operation)
  | exit
  deriving DecidableEq, Repr

/-- The `Prompt` struct of `prompt.rs`. -/
structure Prompt where
  query : List Char
  mode : Mode
  matchList : List Nat
  currentMatch : Nat
  deriving DecidableEq, Repr

/-- `Prompt::new`. -/
def Prompt.new : Prompt :=
  { query := [], mode := Mode.normal, matchList := [], currentMatch := 0 }

/-- `Prompt::set_mode`: switches mode and clears query, matches and the
match cursor. -/
def Prompt.setMode (m : Mode) (_p : Prompt) : Prompt :=
  { query := [], mode := m, matchList := [], currentMatch := 0 }

/-- `Prompt::set_mode_with_text`: switches mode with a prefilled query. -/
def Prompt.setModeWithText (m : Mode) (text : List Char) (_p : Prompt) : Prompt :=
  { query := text, mode := m, matchList := [], currentMatch := 0 }

/-- `Prompt::is_active`. -/
def Prompt.isActive (p : Prompt) : Bool := p.mode ≠ Mode.normal

/-- The match list computed by `Prompt::update_matches` for a query over an
entries list: indices (skipping index 0) whose lowercased file name contains
the lowercased query as a substring. -/
def matchesFor (q : List Char) (entries : List FilePath) : List Nat :=
  ((entries.drop 1).enum).filterMap (fun p =>
    if containsSub (strLower (fileName p.2)) (strLower q) then some (p.1 + 1)
    else none)

/-- `Prompt::update_matches`. -/
def Prompt.updateMatches (entries : List FilePath) (p : Prompt) : Prompt :=
  { p with matchList := matchesFor p.query entries }

/-- `Prompt::next_match`: advances the match cursor cyclically and returns
the match there; `none` when there are no matches. -/
def Prompt.nextMatch (p : Prompt) : Prompt × Option Nat :=
  if p.matchList.isEmpty then (p, none)
  else
    let cm := (p.currentMatch + 1) % p.matchList.length
    ({ p with currentMatch := cm }, some (p.matchList.getD cm 0))

/-- `Prompt::handle_search`.  On `'\n'` with a non-empty match list the mode
returns to `Normal` (query and matches are kept) and the entry at the match
cursor is selected; on `'\n'` with no matches the mode returns to `Normal`
with `Exit`; backspace pops from the query and every other character is
appended, recomputing matches in both cases. -/
def Prompt.handleSearch (input : Char) (entries : List FilePath) (p : Prompt) :
    Prompt × Option ModeAction :=
  if input = '\n' then
    if p.matchList.isEmpty then
      ({ p with mode := Mode.normal }, some ModeAction.exit)
    else
      ({ p with mode := Mode.normal },
        some (ModeAction.select (p.matchList.getD p.currentMatch 0)))
  else if input = '\x08' ∨ input = '\x7f' then
    (Prompt.updateMatches entries { p with query := p.query.dropLast }, none)
  else
    (Prompt.updateMatches entries { p with query := p.query ++ [input] }, none)

/-- Rust `Path::join` with a raw query string: the query is split on the
path separator and appended, empty components dropped. -/
def splitSlash (q : List Char) : List Name :=
  (q.splitOn '/').filter (fun c => ¬ c.isEmpty)

/-- `current_path.join(&query)` as used by the create and rename prompts. -/
def pathJoinStr (base : FilePath) (q : List Char) : FilePath :=
  base ++ splitSlash q

/-- `Prompt::handle_create`.  On `'\n'` with an empty query the prompt
cancels; otherwise the filesystem create call runs first (`fsCall` is its
outcome) and only on success is the mode reset and a `Create` operation
returned — on failure the error propagates with the prompt unchanged.  A
query ending in `'/'` creates a directory, otherwise a file. -/
def Prompt.handleCreate (fsCall : Except Err Unit) (input : Char)
    (currentPath : FilePath) (p : Prompt) :
    (Prompt × Option ModeAction) × Option Err :=
  if input = '\n' then
    if p.query.isEmpty then
      (({ p with mode := Mode.normal }, some ModeAction.exit), none)
    else
      match fsCall with
      | Except.error e => ((p, none), some e)
      | Except.ok _ =>
        let path := pathJoinStr currentPath p.query
        let isDir := p.query.getLast? = some '/'
        (({ p with mode := Mode.normal },
          some (ModeAction.createEntry (Operation.create path isDir))), none)
  else if input = '\x7f' then
    (({ p with query := p.query.dropLast }, none), none)
  else
    (({ p with query := p.query ++ [input] }, none), none)

/-- `Prompt::handle_rename`.  On `'\n'` with an empty query the prompt
cancels; otherwise `rename_path(selected, parent.join(query))` runs
(`fsCall` is its outcome) and only on success does the mode reset; when the
new path differs from the old one a `Rename` operation is returned,
otherwise the rename was a no-op and `Exit` is returned. -/
def Prompt.handleRename (fsCall : Except Err Unit) (input : Char)
    (selectedPath : FilePath) (p : Prompt) :
    (Prompt × Option ModeAction) × Option Err :=
  if input = '\n' then
    if p.query.isEmpty then
      (({ p with mode := Mode.normal }, some ModeAction.exit), none)
    else
      match fsCall with
      | Except.error e => ((p, none), some e)
      | Except.ok _ =>
        let newPath := pathJoinStr ((pathParent selectedPath).getD []) p.query
        if selectedPath ≠ newPath then
          (({ p with mode := Mode.normal },
            some (ModeAction.renameEntry
              (Operation.rename selectedPath newPath))), none)
        else
          (({ p with mode := Mode.normal }, some ModeAction.exit), none)
  else if input = '\x7f' then
    (({ p with query := p.query.dropLast }, none), none)
  else
    (({ p with query := p.query ++ [input] }, none), none)

/-- `Prompt::handle_input`: dispatch on the current mode.  In `Search` mode
an `'\n'` first recomputes the match list against the current entries and
then commits; `Create` and `Rename` delegate (a `Rename` with no selected
path exits); `Normal` ignores the input. -/
def Prompt.handleInput (fsCall : Except Err Unit) (input : Char)
    (entries : List FilePath) (currentPath : FilePath)
    (selectedPath : Option FilePath) (p : Prompt) :
    (Prompt × Option ModeAction) × Option Err :=
  match p.mode with
  | Mode.search =>
    let p0 := if input = '\n' then Prompt.updateMatches entries p else p
    (Prompt.handleSearch input entries p0, none)
  | Mode.create => Prompt.handleCreate fsCall input currentPath p
  | Mode.rename =>
    match selectedPath with
    | some sp => Prompt.handleRename fsCall input sp p
    | none => ((p, some ModeAction.exit), none)
  | Mode.normal => ((p, none), none)


/-! ## Directory lister (`file_ops.rs::read_dir_entries`) -/

/-- One child of a directory as read by `fs::read_dir`, together with the
answer of the `path.is_dir()` filesystem query. -/
structure RawChild where
  name : Name
  isDir : Bool
  deriving DecidableEq, Repr

/-- The sort key of `read_dir_entries`: the lowercased file name. -/
def nameKey (p : FilePath) : List Char := strLower (fileName p)

/-- The comparison underlying `sort_by_key`: keys in lexicographic order. -/
def keyLe (a b : FilePath) : Prop := lexLeB (nameKey a) (nameKey b) = true

instance : DecidableRel keyLe :=
  fun a b => inferInstanceAs (Decidable (lexLeB (nameKey a) (nameKey b) = true))

/-- The synthetic parent entry `path.join("..")` prepended at index 0. -/
def parentEntry (cp : FilePath) : FilePath := cp ++ [['.', '.']]

/-- The sorted directory sub-list built by `read_dir_entries` (the local
`dirs` vector after `sort_by_key`). -/
def readDirDirs (cp : FilePath) (children : List RawChild) : List FilePath :=
  List.insertionSort keyLe
    ((children.filter (fun c => c.isDir)).map (fun c => cp ++ [c.name]))

/-- The sorted file sub-list built by `read_dir_entries` (the local `files`
vector after `sort_by_key`). -/
def readDirFiles (cp : FilePath) (children : List RawChild) : List FilePath :=
  List.insertionSort keyLe
    ((children.filter (fun c => ¬ c.isDir)).map (fun c => cp ++ [c.name]))

/-- `read_dir_entries` on a successfully opened directory: the parent entry,
then the directories sorted by lowercased name, then the files sorted by
lowercased name. -/
def readDirEntries (cp : FilePath) (children : List RawChild) : List FilePath :=
  parentEntry cp :: (readDirDirs cp children ++ readDirFiles cp children)

/-- `read_dir_entries` with the fallible `fs::read_dir` made explicit: an
unopenable directory propagates its error, and children whose read failed
(`filter_map(ok)`) are silently skipped. -/
def readDirEntriesE (cp : FilePath)
    (readDir : Except Err (List (Except Err RawChild))) :
    Except Err (List FilePath) :=
  match readDir with
  | Except.error e => Except.error e
  | Except.ok raw => Except.ok (readDirEntries cp (raw.filterMap Except.toOption))

/-- The listing of `readDirEntries` with each entry tagged by its kind
(`true` for directories, including the parent entry). -/
def readDirTagged (cp : FilePath) (children : List RawChild) :
    List (FilePath × Bool) :=
  (parentEntry cp, true) ::
    ((readDirDirs cp children).map (fun p => (p, true)) ++
     (readDirFiles cp children).map (fun p => (p, false)))

/-! ## Viewport controller (`explorer.rs`, `ui/mod.rs`) -/

/-- The `viewport_start` / `viewport_size` pair of `FileExplorer`. -/
structure Viewport where
  start : Nat
  size : Nat
  deriving DecidableEq, Repr

/-- The recentering step of `FileExplorer::update_viewport`: when the
selection fell past the bottom the window is moved so the selection is the
last visible row, when it fell above the top the window starts at the
selection; otherwise the window is unchanged. -/
def updateViewport (selected : Nat) (v : Viewport) : Viewport :=
  if v.start + v.size ≤ selected then { v with start := selected - v.size + 1 }
  else if selected < v.start then { v with start := selected }
  else v

/-- `FileExplorer::update_viewport`, including the recomputation
`viewport_size = terminal_height - 2`. -/
def explorerUpdateViewport (terminalHeight selected : Nat) (v : Viewport) :
    Viewport :=
  updateViewport selected { v with size := terminalHeight - 2 }

/-- `Renderer::update_viewport` of `ui/mod.rs`: the same recentering plus a
final clamp of `viewport_start` to `total_entries.saturating_sub(size)`. -/
def rendererUpdateViewport (terminalHeight selected total : Nat) (v : Viewport) :
    Viewport :=
  let v1 := updateViewport selected { v with size := terminalHeight - 2 }
  if total - v1.size < v1.start then { v1 with start := total - v1.size } else v1

/-! ## The operation journal -/

/-- The `history` vector and `history_index` cursor of `FileExplorer`. -/
structure Journal where
  history : List Operation
  historyIndex : Nat
  deriving DecidableEq, Repr

/-- The recording step of `FileExplorer::delete`: truncate the history at
the cursor when a redo-able tail exists, then push and advance. -/
def Journal.recordTruncate (op : Operation) (j : Journal) : Journal :=
  let h := if j.historyIndex < j.history.length
           then j.history.take j.historyIndex else j.history
  { history := h ++ [op], historyIndex := j.historyIndex + 1 }

/-- The recording step of `FileExplorer::handle_mode_action` for `Create`
and `Rename`: push and advance, with no truncation. -/
def Journal.recordPush (op : Operation) (j : Journal) : Journal :=
  { history := j.history ++ [op], historyIndex := j.historyIndex + 1 }

/-- Undo is guarded by `history_index > 0`. -/
def Journal.canUndo (j : Journal) : Bool := 0 < j.historyIndex

/-- Redo is guarded by `history_index < history.len()`. -/
def Journal.canRedo (j : Journal) : Bool := j.historyIndex < j.history.length

/-! ## The explorer state machine (`explorer.rs`) -/

/-- The mutable state of `FileExplorer` relevant to navigation: current
path, entries, selection, prompt, pending-delete marker, journal and
viewport.  Purely presentational fields (terminal writer, Lua display
modules, row cache, dirty flag) are omitted. -/
structure ExplorerState where
  currentPath : FilePath
  entries : List FilePath
  selected : Nat
  prompt : Prompt
  deleteMode : Option Nat
  journal : Journal
  viewport : Viewport
  deriving Repr

/-- The filesystem environment of one input event: the terminal height read
by `update_viewport`, the `is_dir` query, and the outcomes of the fallible
calls an event handler may perform (`prepare_delete_operation`, the
mutating call itself, `read_dir_entries`, the directory change, the
external editor). -/
structure FsEnv where
  height : Nat
  isDir : FilePath → Bool
  prep : Except Err Operation
  fsCall : Except Err Unit
  relist : Except Err (List FilePath)
  chdir : Except Err FilePath
  editorCall : Except Err Unit

/-- `FileExplorer::update_viewport` acting on the whole state. -/
def ExplorerState.updateViewport (env : FsEnv) (s : ExplorerState) :
    ExplorerState :=
  { s with viewport := explorerUpdateViewport env.height s.selected s.viewport }

/-- `FileExplorer::scroll_up`. -/
def ExplorerState.scrollUp (env : FsEnv) (s : ExplorerState) : ExplorerState :=
  if 0 < s.viewport.start then
    let vs := s.viewport.start - 1
    let sel := if vs + s.viewport.size ≤ s.selected
               then vs + s.viewport.size - 1 else s.selected
    ExplorerState.updateViewport env
      { s with viewport := { s.viewport with start := vs }, selected := sel }
  else s

/-- `FileExplorer::scroll_down`. -/
def ExplorerState.scrollDown (env : FsEnv) (s : ExplorerState) : ExplorerState :=
  if s.viewport.start + s.viewport.size < s.entries.length then
    let vs := s.viewport.start + 1
    let sel := if s.selected < vs then vs else s.selected
    ExplorerState.updateViewport env
      { s with viewport := { s.viewport with start := vs }, selected := sel }
  else s

/-- `FileExplorer::navigate`: entering a directory changes directory,
relists and resets selection and viewport; activating a file opens the
external editor.  Each fallible call propagates its error at the point it
occurs. -/
def ExplorerState.navigate (env : FsEnv) (s : ExplorerState) :
    ExplorerState × Option Err :=
  if s.selected < s.entries.length then
    let sp := s.entries.getD s.selected []
    if env.isDir sp then
      match env.chdir with
      | Except.error e => (s, some e)
      | Except.ok newCp =>
        match env.relist with
        | Except.error e => ({ s with currentPath := newCp }, some e)
        | Except.ok es =>
          (ExplorerState.updateViewport env
            { s with currentPath := newCp, entries := es, selected := 1,
                     viewport := { s.viewport with start := 0 } }, none)
    else
      match env.editorCall with
      | Except.error e => (s, some e)
      | Except.ok _ => (s, none)
  else (s, none)

/-- `FileExplorer::increment_selected`. -/
def ExplorerState.incrementSelected (env : FsEnv) (s : ExplorerState) :
    ExplorerState :=
  if s.selected < s.entries.length - 1 then
    ExplorerState.updateViewport env { s with selected := s.selected + 1 }
  else s

/-- `FileExplorer::decrement_selected`. -/
def ExplorerState.decrementSelected (env : FsEnv) (s : ExplorerState) :
    ExplorerState :=
  if 0 < s.selected then
    ExplorerState.updateViewport env { s with selected := s.selected - 1 }
  else s

/-- `FileExplorer::goto_header`. -/
def ExplorerState.gotoHeader (env : FsEnv) (s : ExplorerState) : ExplorerState :=
  if 0 < s.selected then
    ExplorerState.updateViewport env
      { s with selected := 0, viewport := { s.viewport with start := 0 } }
  else s

/-- `FileExplorer::goto_footer`. -/
def ExplorerState.gotoFooter (env : FsEnv) (s : ExplorerState) : ExplorerState :=
  if s.selected < s.entries.length - 1 then
    ExplorerState.updateViewport env { s with selected := s.entries.length - 1 }
  else s

/-- `FileExplorer::delete`: with a valid non-parent selection, an unarmed
marker is armed (no other mutation); an armed marker triggers
`prepare_delete_operation` then `delete_path` (each propagating failure
with the state untouched), and on success records the operation with
truncation, removes the entry and clears the marker. -/
def ExplorerState.deleteCmd (env : FsEnv) (s : ExplorerState) :
    ExplorerState × Option Err :=
  if 0 < s.selected ∧ s.selected < s.entries.length then
    match s.deleteMode with
    | none => ({ s with deleteMode := some s.selected }, none)
    | some _ =>
      match env.prep with
      | Except.error e => (s, some e)
      | Except.ok op =>
        match env.fsCall with
        | Except.error e => (s, some e)
        | Except.ok _ =>
          ({ s with journal := Journal.recordTruncate op s.journal,
                    entries := s.entries.eraseIdx s.selected,
                    deleteMode := none }, none)
  else (s, none)

/-- The selection retargeting performed at the end of a successful undo,
per operation kind ( `explorer.rs` lines 375-393). -/
def selAfterUndo (op : Operation) (es : List FilePath) (selected : Nat) : Nat :=
  match op with
  | Operation.delete path _ _ position _ =>
    match es.findIdx? (fun p => p == path) with
    | some pos => pos
    | none => min position (es.length - 1)
  | Operation.create _ _ => min selected (es.length - 1)
  | Operation.rename _ newPath =>
    match es.findIdx? (fun p => p == newPath) with
    | some pos => pos
    | none => min selected (es.length - 1)

/-- `FileExplorer::undo`: when the cursor is positive it is decremented
first; only then does the inverse filesystem call run, followed by the
relisting, each propagating failure with the in-memory mutations done so
far kept (in particular a failed filesystem call leaves the cursor already
decremented). -/
def ExplorerState.undoCmd (env : FsEnv) (s : ExplorerState) :
    ExplorerState × Option Err :=
  if 0 < s.journal.historyIndex then
    let idx := s.journal.historyIndex - 1
    let s1 := { s with journal := { s.journal with historyIndex := idx } }
    let op := s.journal.history.getD idx (Operation.create [] false)
    match env.fsCall with
    | Except.error e => (s1, some e)
    | Except.ok _ =>
      match env.relist with
      | Except.error e => (s1, some e)
      | Except.ok es =>
        ({ s1 with entries := es, selected := selAfterUndo op es s.selected },
          none)
  else (s, none)

/-- `FileExplorer::redo`: the forward filesystem call of the operation at
the cursor runs first; only on success is the cursor advanced, then the
relisting runs and the selection is clamped into range. -/
def ExplorerState.redoCmd (env : FsEnv) (s : ExplorerState) :
    ExplorerState × Option Err :=
  if s.journal.historyIndex < s.journal.history.length then
    match env.fsCall with
    | Except.error e => (s, some e)
    | Except.ok _ =>
      let s1 := { s with journal :=
        { s.journal with historyIndex := s.journal.historyIndex + 1 } }
      match env.relist with
      | Except.error e => (s1, some e)
      | Except.ok es =>
        let sel := if es.length ≤ s.selected
                   then min s.selected (es.length - 1) else s.selected
        ({ s1 with entries := es, selected := sel }, none)
  else (s, none)

/-- `FileExplorer::handle_mode_action`: `Select` moves the selection;
`CreateEntry` and `RenameEntry` push the operation onto the history (with
no truncation), relist, and for a create select the last index; the
viewport update runs only when no error was propagated. -/
def ExplorerState.handleModeAction (env : FsEnv) (action : ModeAction)
    (s : ExplorerState) : ExplorerState × Option Err :=
  match action with
  | ModeAction.select index =>
    (ExplorerState.updateViewport env { s with selected := index }, none)
  | ModeAction.createEntry op =>
    let s2 := { s with journal := Journal.recordPush op s.journal }
    match env.relist with
    | Except.error e => (s2, some e)
    | Except.ok es =>
      (ExplorerState.updateViewport env
        { s2 with entries := es, selected := es.length - 1 }, none)
  | ModeAction.renameEntry op =>
    let s2 := { s with journal := Journal.recordPush op s.journal }
    match env.relist with
    | Except.error e => (s2, some e)
    | Except.ok es =>
      (ExplorerState.updateViewport env { s2 with entries := es }, none)
  | ModeAction.exit => (ExplorerState.updateViewport env s, none)

/-- A key event: the `KeyCode` plus whether the control modifier is held. -/
inductive KeyCode where
  | char (c : Char)
  | enter
  | esc
  | backspace
  | up
  | down
  | home
  | endKey
  | otherKey
  deriving DecidableEq, Repr

/-- A key event with its control modifier. -/
structure KeyEvent where
  code : KeyCode
  ctrl : Bool
  deriving DecidableEq, Repr

/-- One prompt-directed keystroke (`Enter`, a character, or backspace while
a prompt is active): feeds the character to `Prompt::handle_input`, keeps
the prompt mutations even when the fallible call inside failed, and on a
returned action dispatches `handle_mode_action`. -/
def promptKeyStep (env : FsEnv) (input : Char) (s : ExplorerState) :
    ExplorerState × Option FilePath × Option Err :=
  let sp := s.entries.get? s.selected
  let r := Prompt.handleInput env.fsCall input s.entries s.currentPath sp s.prompt
  let s1 := { s with prompt := r.1.1 }
  match r.2 with
  | some e => (s1, none, some e)
  | none =>
    match r.1.2 with
    | some a =>
      let m := ExplorerState.handleModeAction env a s1
      (m.1, none, m.2)
    | none => (s1, none, none)

/-- `FileExplorer::handle_key_event`.  Any key whose code differs from
`Char('d')` first clears the pending-delete marker.  With an active prompt
the key is routed to the prompt; otherwise it is dispatched as a command.
The middle component of the result is the path returned on quit. -/
def ExplorerState.handleKeyEvent (env : FsEnv) (k : KeyEvent)
    (s : ExplorerState) : ExplorerState × Option FilePath × Option Err :=
  let s := if k.code ≠ KeyCode.char 'd' then { s with deleteMode := none } else s
  if s.prompt.isActive then
    match k.code with
    | KeyCode.esc => ({ s with prompt := s.prompt.setMode Mode.normal }, none, none)
    | KeyCode.enter => promptKeyStep env '\n' s
    | KeyCode.char c => promptKeyStep env c s
    | KeyCode.backspace => promptKeyStep env '\x7f' s
    | _ => (s, none, none)
  else
    match k.code, k.ctrl with
    | KeyCode.char '/', _ =>
      ({ s with prompt := s.prompt.setMode Mode.search }, none, none)
    | KeyCode.char 'n', _ =>
      let pr := s.prompt.nextMatch
      ({ s with prompt := pr.1, selected := pr.2.getD s.selected }, none, none)
    | KeyCode.char 'a', _ =>
      ({ s with prompt := s.prompt.setMode Mode.create }, none, none)
    | KeyCode.char 'r', true =>
      let r := ExplorerState.redoCmd env s
      (r.1, none, r.2)
    | KeyCode.char 'r', false =>
      if 0 < s.selected then
        let nm := fileName (s.entries.getD s.selected [])
        ({ s with prompt := s.prompt.setModeWithText Mode.rename nm }, none, none)
      else (s, none, none)
    | KeyCode.char 'q', _ => (s, some s.currentPath, none)
    | KeyCode.char 'j', _ => (ExplorerState.incrementSelected env s, none, none)
    | KeyCode.down, _ => (ExplorerState.incrementSelected env s, none, none)
    | KeyCode.char 'k', _ => (ExplorerState.decrementSelected env s, none, none)
    | KeyCode.up, _ => (ExplorerState.decrementSelected env s, none, none)
    | KeyCode.char 'G', _ => (ExplorerState.gotoFooter env s, none, none)
    | KeyCode.endKey, _ => (ExplorerState.gotoFooter env s, none, none)
    | KeyCode.char 'g', _ => (ExplorerState.gotoHeader env s, none, none)
    | KeyCode.home, _ => (ExplorerState.gotoHeader env s, none, none)
    | KeyCode.char 'd', _ =>
      let r := ExplorerState.deleteCmd env s
      (r.1, none, r.2)
    | KeyCode.char 'u', _ =>
      let r := ExplorerState.undoCmd env s
      (r.1, none, r.2)
    | KeyCode.enter, _ =>
      let r := ExplorerState.navigate env s
      (r.1, none, r.2)
    | _, _ => (s, none, none)

/-- A mouse event as matched by `FileExplorer::handle_mouse_event`. -/
inductive MouseEvent where
  | scrollDown
  | scrollUp
  | clickLeft (row : Nat)
  | otherMouse
  deriving DecidableEq, Repr

/-- `FileExplorer::handle_mouse_event`: wheel scrolling moves the window by
one row, a left click on a visible row selects it, or activates it when it
was already selected.  The pending-delete marker is not touched. -/
def ExplorerState.handleMouseEvent (env : FsEnv) (ev : MouseEvent)
    (s : ExplorerState) : ExplorerState × Option Err :=
  match ev with
  | MouseEvent.scrollDown => (ExplorerState.scrollDown env s, none)
  | MouseEvent.scrollUp => (ExplorerState.scrollUp env s, none)
  | MouseEvent.clickLeft row =>
    let idx := row + s.viewport.start
    if idx < s.entries.length then
      if s.selected = idx then ExplorerState.navigate env s
      else (ExplorerState.updateViewport env { s with selected := idx }, none)
    else (s, none)
  | MouseEvent.otherMouse => (s, none)

/-! ## Filesystem model for backup and restore (`history.rs`, `file_ops.rs`)

A directory subtree about to be deleted is a tree; the filesystem at large
is a flat state: the list of existing directories and an association list
from file path to byte content. -/

/-- A filesystem subtree: a file with its bytes, or a directory with its
named children (in `fs::read_dir` iteration order). -/
inductive FsTree where
  | file (content : List Nat)
  | dir (children : List (Name × FsTree))

/-- The flat filesystem state: existing directories and files with bytes. -/
structure FsState where
  dirs : List FilePath
  files : List (FilePath × List Nat)
  deriving DecidableEq, Repr

/-- All ancestors of a path including the path itself, shortest first:
exactly the directories `fs::create_dir_all` creates when missing. -/
def ancestors (p : FilePath) : List FilePath :=
  (List.range p.length).map (fun k => p.take (k + 1))

/-- `fs::create_dir_all(p)`: adds every missing ancestor of `p` and `p`
itself to the directory list. -/
def createDirAll (p : FilePath) (st : FsState) : FsState :=
  { st with dirs := st.dirs ++ (ancestors p).filter (fun q => decide (q ∉ st.dirs)) }

/-- Association-list update with first-match replace, else append: the
model of overwriting `fs::write`. -/
def setAssoc (p : FilePath) (bytes : List Nat) :
    List (FilePath × List Nat) → List (FilePath × List Nat)
  | [] => [(p, bytes)]
  | e :: rest => if e.1 = p then (p, bytes) :: rest else e :: setAssoc p bytes rest

/-- First-match association-list lookup: the model of `fs::read`. -/
def getAssoc (p : FilePath) : List (FilePath × List Nat) → Option (List Nat)
  | [] => none
  | e :: rest => if e.1 = p then some e.2 else getAssoc p rest

/-- `fs::write(p, bytes)`. -/
def writeFile (p : FilePath) (bytes : List Nat) (st : FsState) : FsState :=
  { st with files := setAssoc p bytes st.files }

/-- `fs::remove_dir_all(root)`: drops every directory and file having
`root` as a prefix (the root itself included). -/
def removeSubtree (root : FilePath) (st : FsState) : FsState :=
  { dirs := st.dirs.filter (fun q => decide (q.take root.length ≠ root)),
    files := st.files.filter (fun e => decide (e.1.take root.length ≠ root)) }

/-- `fs::remove_file(p)`. -/
def removeFile (p : FilePath) (st : FsState) : FsState :=
  { st with files := st.files.filter (fun e => decide (e.1 ≠ p)) }

/-- `history.rs::backup_dir_contents`: one `read_dir` pass over the children
of `base.join(rel)`; a file is read and inserted into `files` under its
path relative to the backup root, a directory is appended to `dirs` and
then recursively traversed before the remaining siblings.  The directory
being traversed is presented as its subtree `cs`, and `rel` plays the role
of `current_path.strip_prefix(base_path)`. -/
def backupDirContents (rel : FilePath) :
    List (Name × FsTree) → DirBackup → DirBackup
  | [], acc => acc
  | (n, FsTree.file bytes) :: rest, acc =>
    backupDirContents rel rest
      { acc with files := acc.files ++ [(rel ++ [n], bytes)] }
  | (n, FsTree.dir sub) :: rest, acc =>
    let acc1 := { acc with dirs := acc.dirs ++ [rel ++ [n]] }
    let acc2 := backupDirContents (rel ++ [n]) sub acc1
    backupDirContents rel rest acc2

/-- `history.rs::backup_dir`: traverse from an empty backup. -/
def backupDir (cs : List (Name × FsTree)) : DirBackup :=
  backupDirContents [] cs { files := [], dirs := [] }

/-- One iteration of the backed-up-file restore loop of
`restore_deleted_path`: `fs::create_dir_all` on the parent of the full
path (unconditionally), then `fs::write` the saved bytes. -/
def restoreFileStep (root : FilePath) (acc : FsState)
    (e : FilePath × List Nat) : FsState :=
  let full := root ++ e.1
  let acc1 := match pathParent full with
    | some par => createDirAll par acc
    | none => acc
  writeFile full e.2 acc1

/-- One iteration of the backed-up-subdirectory restore loop of
`restore_deleted_path`: `fs::create_dir_all` on the full path. -/
def restoreDirStep (root : FilePath) (acc : FsState) (d : FilePath) :
    FsState :=
  createDirAll (root ++ d) acc

/-- `file_ops.rs::restore_deleted_path`.  For a directory: recreate the
root, write every backed-up file at its relative path (creating its parent
directories first, unconditionally), then recreate every backed-up
subdirectory.  For a file: recreate the parent only when missing, then
write the saved bytes; with no saved content nothing happens. -/
def restoreDeletedPath (p : FilePath) (isDirFlag : Bool)
    (content : Option (List Nat)) (backup : Option DirBackup)
    (st : FsState) : FsState :=
  if isDirFlag then
    let st1 := createDirAll p st
    match backup with
    | some b =>
      let st2 := b.files.foldl (restoreFileStep p) st1
      b.dirs.foldl (restoreDirStep p) st2
    | none => st1
  else
    match content with
    | some data =>
      let st1 := match pathParent p with
        | some par => if decide (par ∈ st.dirs) then st else createDirAll par st
        | none => st
      writeFile p data st1
    | none => st

/-- The files of a subtree, keyed by relative path, in traversal order. -/
def treeFiles : List (Name × FsTree) → List (FilePath × List Nat)
  | [] => []
  | (n, FsTree.file bytes) :: rest => ([n], bytes) :: treeFiles rest
  | (n, FsTree.dir sub) :: rest =>
    (treeFiles sub).map (fun e => (n :: e.1, e.2)) ++ treeFiles rest

/-- The subdirectories of a subtree, as relative paths, in traversal
order (every directory appears, also empty ones). -/
def treeDirs : List (Name × FsTree) → List FilePath
  | [] => []
  | (_, FsTree.file _) :: rest => treeDirs rest
  | (n, FsTree.dir sub) :: rest =>
    [n] :: (treeDirs sub).map (fun d => n :: d) ++ treeDirs rest

/-- The flat filesystem obtained by placing the subtree `cs` at `root` on
top of an ambient state `st`: the state just before the subtree is
deleted. -/
def adjoinSubtree (root : FilePath) (cs : List (Name × FsTree))
    (st : FsState) : FsState :=
  { dirs := st.dirs ++ [root] ++ (treeDirs cs).map (fun d => root ++ d),
    files := st.files ++ (treeFiles cs).map (fun e => (root ++ e.1, e.2)) }

/-- Well-formed subtree: sibling names are distinct, recursively. -/
inductive WfTree : FsTree → Prop where
  | file (b : List Nat) : WfTree (FsTree.file b)
  | dir (cs : List (Name × FsTree)) : (cs.map Prod.fst).Nodup →
      (∀ e ∈ cs, WfTree e.2) → WfTree (FsTree.dir cs)

/-! ## Order facts about the sort key -/

theorem lexLeB_total (a b : List Char) : lexLeB a b = true ∨ lexLeB b a = true := by
  induction a generalizing b with
  | nil => left; rfl
  | cons x xs ih =>
    cases b with
    | nil => right; rfl
    | cons y ys =>
      rcases lt_trichotomy x y with h | h | h
      · left; simp [lexLeB, h]
      · subst h
        rcases ih ys with h2 | h2
        · left; simp [lexLeB, h2]
        · right; simp [lexLeB, h2]
      · right; simp [lexLeB, h]

theorem lexLeB_trans : ∀ {a b c : List Char},
    lexLeB a b = true → lexLeB b c = true → lexLeB a c = true := by
  intro a
  induction a with
  | nil => intro b c _ _; rfl
  | cons x xs ih =>
    intro b c h1 h2
    cases b with
    | nil => simp [lexLeB] at h1
    | cons y ys =>
      cases c with
      | nil => simp [lexLeB] at h2
      | cons z zs =>
        rcases lt_trichotomy x y with hxy | hxy | hxy
        · rcases lt_trichotomy y z with hyz | hyz | hyz
          · simp [lexLeB, lt_trans hxy hyz]
          · subst hyz; simp [lexLeB, hxy]
          · simp [lexLeB, hyz, lt_asymm hyz] at h2
        · subst hxy
          rcases lt_trichotomy x z with hyz | hyz | hyz
          · simp [lexLeB, hyz]
          · subst hyz
            simp only [lexLeB, lt_irrefl, if_false] at h1 h2 ⊢
            exact ih h1 h2
          · simp [lexLeB, hyz, lt_asymm hyz] at h2
        · simp [lexLeB, hxy, lt_asymm hxy] at h1

instance : IsTotal FilePath keyLe := ⟨fun x y => lexLeB_total (nameKey x) (nameKey y)⟩

instance : IsTrans FilePath keyLe := ⟨fun _ _ _ => lexLeB_trans⟩

/-! ## Claim C8: the viewport window invariant -/

@[simp] theorem Viewport.start_mk (a b : Nat) : (Viewport.mk a b).start = a := rfl

@[simp] theorem Viewport.size_mk (a b : Nat) : (Viewport.mk a b).size = b := rfl

/-- C8 counterexample: the claim asserts that whenever the entry count is
smaller than the window size, `start` is `0` after the update; but
`FileExplorer::update_viewport` never consults the entry count: with
`selected = 3`, `start = 5`, `size = 10` and `4` entries, the update sets
`start = 3`, not `0`. -/
theorem updateViewport_smallTotal_start_ne_zero :
    4 < 10 ∧ (updateViewport 3 { start := 5, size := 10 }).start = 3 := by
  constructor
  · decide
  · rfl

/-- C8 (amended): for every selection index, viewport start and positive
window size, after `FileExplorer::update_viewport` the window satisfies
`start ≤ selected < start + size`, with no dependence on the entry count;
the `start = 0` guarantee for `total < size` holds not of this function but
of `Renderer::update_viewport` (ui/mod.rs), which clamps `start` to
`total.saturating_sub(size)`. -/
theorem viewport_window_invariant (selected total ht : Nat) (v : Viewport)
    (h : 1 ≤ v.size) :
    ((updateViewport selected v).start ≤ selected ∧
     selected < (updateViewport selected v).start + (updateViewport selected v).size) ∧
    (total < ht - 2 → (rendererUpdateViewport ht selected total v).start = 0) := by
  constructor
  · unfold updateViewport
    by_cases h1 : v.start + v.size ≤ selected
    · simp only [if_pos h1]
      omega
    · simp only [if_neg h1]
      by_cases h2 : selected < v.start
      · simp only [if_pos h2]
        omega
      · simp only [if_neg h2]
        omega
  · intro hlt
    unfold rendererUpdateViewport updateViewport
    simp only [apply_ite Viewport.start, apply_ite Viewport.size,
      Viewport.start_mk, Viewport.size_mk]
    repeat' split
    all_goals omega

/-- Witness for `viewport_window_invariant` at `selected = 7`,
`v = ⟨0, 3⟩`, `total = 2`, `ht = 10`. -/
theorem viewport_window_invariant_witness :
    1 ≤ (3 : Nat) ∧
    (((updateViewport 7 { start := 0, size := 3 }).start ≤ 7 ∧
      7 < (updateViewport 7 { start := 0, size := 3 }).start +
          (updateViewport 7 { start := 0, size := 3 }).size) ∧
     (2 < 10 - 2 → (rendererUpdateViewport 10 7 2 { start := 0, size := 3 }).start = 0)) :=
  ⟨by decide, viewport_window_invariant 7 2 10 { start := 0, size := 3 } (by decide)⟩

/-! ## Claim C9: the journal cursor bound -/

/-- The journal invariant: the cursor never exceeds the history length
(`0 ≤ history_index` is implicit in the `Nat` type of the cursor). -/
def journalInv (j : Journal) : Prop := j.historyIndex ≤ j.history.length

theorem journalInv_recordTruncate (op : Operation) (j : Journal)
    (h : journalInv j) : journalInv (Journal.recordTruncate op j) := by
  unfold journalInv Journal.recordTruncate at *
  split <;> simp [List.length_take] <;> omega

theorem journalInv_recordPush (op : Operation) (j : Journal)
    (h : journalInv j) : journalInv (Journal.recordPush op j) := by
  unfold journalInv Journal.recordPush at *
  simp
  omega

@[simp] theorem journal_updateViewport (env : FsEnv) (s : ExplorerState) :
    (ExplorerState.updateViewport env s).journal = s.journal := rfl

theorem journal_scrollUp (env : FsEnv) (s : ExplorerState) :
    (ExplorerState.scrollUp env s).journal = s.journal := by
  unfold ExplorerState.scrollUp ExplorerState.updateViewport
  split <;> rfl

theorem journal_scrollDown (env : FsEnv) (s : ExplorerState) :
    (ExplorerState.scrollDown env s).journal = s.journal := by
  unfold ExplorerState.scrollDown ExplorerState.updateViewport
  split <;> rfl

theorem journal_navigate (env : FsEnv) (s : ExplorerState) :
    (ExplorerState.navigate env s).1.journal = s.journal := by
  unfold ExplorerState.navigate
  repeat' (first | split | dsimp only)
  all_goals simp

theorem journal_incrementSelected (env : FsEnv) (s : ExplorerState) :
    (ExplorerState.incrementSelected env s).journal = s.journal := by
  unfold ExplorerState.incrementSelected ExplorerState.updateViewport
  split <;> rfl

theorem journal_decrementSelected (env : FsEnv) (s : ExplorerState) :
    (ExplorerState.decrementSelected env s).journal = s.journal := by
  unfold ExplorerState.decrementSelected ExplorerState.updateViewport
  split <;> rfl

theorem journal_gotoHeader (env : FsEnv) (s : ExplorerState) :
    (ExplorerState.gotoHeader env s).journal = s.journal := by
  unfold ExplorerState.gotoHeader ExplorerState.updateViewport
  split <;> rfl

theorem journal_gotoFooter (env : FsEnv) (s : ExplorerState) :
    (ExplorerState.gotoFooter env s).journal = s.journal := by
  unfold ExplorerState.gotoFooter ExplorerState.updateViewport
  split <;> rfl

theorem journalInv_deleteCmd (env : FsEnv) (s : ExplorerState)
    (h : journalInv s.journal) :
    journalInv (ExplorerState.deleteCmd env s).1.journal := by
  unfold ExplorerState.deleteCmd
  repeat' split
  all_goals first
    | exact h
    | exact journalInv_recordTruncate _ _ h

theorem journalInv_undoCmd (env : FsEnv) (s : ExplorerState)
    (h : journalInv s.journal) :
    journalInv (ExplorerState.undoCmd env s).1.journal := by
  unfold ExplorerState.undoCmd
  unfold journalInv at *
  repeat' (first | split | dsimp only)
  all_goals try simp
  all_goals omega

theorem journalInv_redoCmd (env : FsEnv) (s : ExplorerState)
    (h : journalInv s.journal) :
    journalInv (ExplorerState.redoCmd env s).1.journal := by
  unfold ExplorerState.redoCmd
  unfold journalInv at *
  repeat' (first | split | dsimp only)
  all_goals try simp_all
  all_goals omega

theorem journalInv_handleModeAction (env : FsEnv) (a : ModeAction)
    (s : ExplorerState) (h : journalInv s.journal) :
    journalInv (ExplorerState.handleModeAction env a s).1.journal := by
  unfold ExplorerState.handleModeAction
  repeat' (first | split | dsimp only)
  all_goals try simp only [journal_updateViewport]
  all_goals first
    | exact h
    | exact journalInv_recordPush _ _ h

theorem journalInv_promptKeyStep (env : FsEnv) (c : Char) (s : ExplorerState)
    (h : journalInv s.journal) :
    journalInv (promptKeyStep env c s).1.journal := by
  unfold promptKeyStep
  repeat' (first | split | dsimp only)
  all_goals first
    | exact h
    | exact journalInv_handleModeAction _ _ _ h

set_option maxHeartbeats 2000000 in
theorem journalInv_handleKeyEvent (env : FsEnv) (k : KeyEvent)
    (s : ExplorerState) (h : journalInv s.journal) :
    journalInv (ExplorerState.handleKeyEvent env k s).1.journal := by
  obtain ⟨code, ctrl⟩ := k
  unfold ExplorerState.handleKeyEvent
  dsimp only
  repeat' (first | split | dsimp only)
  all_goals first
    | exact h
    | exact journalInv_promptKeyStep _ _ _ h
    | exact journalInv_redoCmd _ _ h
    | exact journalInv_deleteCmd _ _ h
    | exact journalInv_undoCmd _ _ h
    | (rw [journal_navigate]; exact h)
    | (rw [journal_incrementSelected]; exact h)
    | (rw [journal_decrementSelected]; exact h)
    | (rw [journal_gotoFooter]; exact h)
    | (rw [journal_gotoHeader]; exact h)

theorem journalInv_handleMouseEvent (env : FsEnv) (ev : MouseEvent)
    (s : ExplorerState) (h : journalInv s.journal) :
    journalInv (ExplorerState.handleMouseEvent env ev s).1.journal := by
  unfold ExplorerState.handleMouseEvent
  repeat' (first | split | dsimp only)
  all_goals first
    | exact h
    | (rw [journal_scrollDown]; exact h)
    | (rw [journal_scrollUp]; exact h)
    | (rw [journal_navigate]; exact h)

/-- The state `FileExplorer::new` starts in: entries from the initial
listing, selection `1`, empty prompt, no pending delete, empty history with
cursor `0`, viewport at the top with the full terminal height. -/
def initialState (cp : FilePath) (entries : List FilePath) (height : Nat) :
    ExplorerState :=
  { currentPath := cp, entries := entries, selected := 1,
    prompt := Prompt.new, deleteMode := none,
    journal := { history := [], historyIndex := 0 },
    viewport := { start := 0, size := height } }

/-- One iteration of `run_loop`: a key event, a mouse event, or a resize
(which only reruns the viewport update), under an arbitrary filesystem
environment. -/
inductive ExplorerStep : ExplorerState → ExplorerState → Prop where
  | key (env : FsEnv) (k : KeyEvent) (s : ExplorerState) :
      ExplorerStep s (ExplorerState.handleKeyEvent env k s).1
  | mouse (env : FsEnv) (ev : MouseEvent) (s : ExplorerState) :
      ExplorerStep s (ExplorerState.handleMouseEvent env ev s).1
  | resize (env : FsEnv) (s : ExplorerState) :
      ExplorerStep s (ExplorerState.updateViewport env s)

/-- The application states reachable from a fresh `FileExplorer` by any
sequence of input events. -/
inductive ReachableExplorer : ExplorerState → Prop where
  | init (cp : FilePath) (entries : List FilePath) (height : Nat) :
      ReachableExplorer (initialState cp entries height)
  | step (s s2 : ExplorerState) : ReachableExplorer s → ExplorerStep s s2 →
      ReachableExplorer s2

/-- C9 (confirmed): in every reachable application state the journal cursor
satisfies `history_index ≤ history.len()` (`0 ≤ history_index` holds by the
unsigned type); every journal-mutating operation — recording a delete via
the delete command, recording a create or rename via `handle_mode_action`,
undoing and redoing — preserves the bound, as does every other event. -/
theorem reachable_journal_cursor_bound (s : ExplorerState)
    (h : ReachableExplorer s) :
    s.journal.historyIndex ≤ s.journal.history.length := by
  induction h with
  | init cp entries height => exact Nat.le_refl 0
  | step s s2 _ hstep ih =>
    cases hstep with
    | key env k s => exact journalInv_handleKeyEvent env k s ih
    | mouse env ev s => exact journalInv_handleMouseEvent env ev s ih
    | resize env s => exact ih

/-- Witness for `reachable_journal_cursor_bound`: the bound holds of the
state reached from a fresh explorer after one delete key event. -/
theorem reachable_journal_cursor_bound_witness :
    (ExplorerState.handleKeyEvent
        { height := 10, isDir := fun _ => false,
          prep := Except.ok (Operation.create [] false),
          fsCall := Except.ok (), relist := Except.ok [],
          chdir := Except.ok [], editorCall := Except.ok () }
        { code := KeyCode.char 'd', ctrl := false }
        (initialState [] [[['a']]] 10)).1.journal.historyIndex ≤
    (ExplorerState.handleKeyEvent
        { height := 10, isDir := fun _ => false,
          prep := Except.ok (Operation.create [] false),
          fsCall := Except.ok (), relist := Except.ok [],
          chdir := Except.ok [], editorCall := Except.ok () }
        { code := KeyCode.char 'd', ctrl := false }
        (initialState [] [[['a']]] 10)).1.journal.history.length :=
  reachable_journal_cursor_bound _
    (ReachableExplorer.step _ _ (ReachableExplorer.init [] [[['a']]] 10)
      (ExplorerStep.key _ _ _))

/-! ## Claims C1 and C2: journal failure semantics and record truncation -/

/-- C2 (code bug): recording a create after undos does not truncate the
redo tail.  With `history = [Delete a, Delete b]` fully undone
(`history_index = 0`), committing a create makes `handle_mode_action` push
without truncating: the history becomes `[Delete a, Delete b, Create c]`
with cursor `1`, the discarded-tail ops survive, and redo is available
(it would re-apply the stale `Delete b`) — where the spec requires the tail
to be discarded and redo to be unavailable, as the delete path's
`recordTruncate` indeed does. -/
theorem createRecord_keeps_redo_tail :
    (ExplorerState.handleModeAction
        { height := 10, isDir := fun _ => false,
          prep := Except.ok (Operation.create [['c']] false),
          fsCall := Except.ok (),
          relist := Except.ok [[['.', '.']], [['c']]],
          chdir := Except.ok [], editorCall := Except.ok () }
        (ModeAction.createEntry (Operation.create [['c']] false))
        { currentPath := [], entries := [[['.', '.']]], selected := 1,
          prompt := Prompt.new, deleteMode := none,
          journal := { history := [Operation.delete [['a']] false (some []) 1 none,
                                   Operation.delete [['b']] false (some []) 2 none],
                       historyIndex := 0 },
          viewport := { start := 0, size := 10 } }).1.journal =
      { history := [Operation.delete [['a']] false (some []) 1 none,
                    Operation.delete [['b']] false (some []) 2 none,
                    Operation.create [['c']] false],
        historyIndex := 1 } ∧
    Journal.canRedo
      { history := [Operation.delete [['a']] false (some []) 1 none,
                    Operation.delete [['b']] false (some []) 2 none,
                    Operation.create [['c']] false],
        historyIndex := 1 } = true ∧
    Journal.recordTruncate (Operation.create [['c']] false)
      { history := [Operation.delete [['a']] false (some []) 1 none,
                    Operation.delete [['b']] false (some []) 2 none],
        historyIndex := 0 } =
      { history := [Operation.create [['c']] false], historyIndex := 1 } := by
  refine ⟨rfl, rfl, rfl⟩

/-- C1 (code bug): a failed filesystem call inside undo does not leave the
journal unchanged.  With `history = [Delete a]` and `history_index = 1`,
an undo whose `restore_deleted_path` fails propagates the error but has
already decremented the cursor to `0`; by contrast a failed redo and a
failed delete (in either of its two fallible calls) leave the journal
exactly as it was. -/
theorem undo_failure_moves_cursor :
    (ExplorerState.undoCmd
        { height := 10, isDir := fun _ => false,
          prep := Except.error Err.ioError, fsCall := Except.error Err.ioError,
          relist := Except.error Err.ioError, chdir := Except.error Err.ioError,
          editorCall := Except.error Err.ioError }
        { currentPath := [], entries := [[['.', '.']]], selected := 1,
          prompt := Prompt.new, deleteMode := none,
          journal := { history := [Operation.delete [['a']] false (some []) 1 none],
                       historyIndex := 1 },
          viewport := { start := 0, size := 10 } }).2 = some Err.ioError ∧
    (ExplorerState.undoCmd
        { height := 10, isDir := fun _ => false,
          prep := Except.error Err.ioError, fsCall := Except.error Err.ioError,
          relist := Except.error Err.ioError, chdir := Except.error Err.ioError,
          editorCall := Except.error Err.ioError }
        { currentPath := [], entries := [[['.', '.']]], selected := 1,
          prompt := Prompt.new, deleteMode := none,
          journal := { history := [Operation.delete [['a']] false (some []) 1 none],
                       historyIndex := 1 },
          viewport := { start := 0, size := 10 } }).1.journal =
      { history := [Operation.delete [['a']] false (some []) 1 none],
        historyIndex := 0 } ∧
    (ExplorerState.redoCmd
        { height := 10, isDir := fun _ => false,
          prep := Except.error Err.ioError, fsCall := Except.error Err.ioError,
          relist := Except.error Err.ioError, chdir := Except.error Err.ioError,
          editorCall := Except.error Err.ioError }
        { currentPath := [], entries := [[['.', '.']]], selected := 1,
          prompt := Prompt.new, deleteMode := none,
          journal := { history := [Operation.delete [['a']] false (some []) 1 none],
                       historyIndex := 0 },
          viewport := { start := 0, size := 10 } }).1.journal =
      { history := [Operation.delete [['a']] false (some []) 1 none],
        historyIndex := 0 } ∧
    (ExplorerState.deleteCmd
        { height := 10, isDir := fun _ => false,
          prep := Except.error Err.ioError, fsCall := Except.error Err.ioError,
          relist := Except.error Err.ioError, chdir := Except.error Err.ioError,
          editorCall := Except.error Err.ioError }
        { currentPath := [], entries := [[['.', '.']], [['a']]], selected := 1,
          prompt := Prompt.new, deleteMode := some 1,
          journal := { history := [], historyIndex := 0 },
          viewport := { start := 0, size := 10 } }).1.journal =
      { history := [], historyIndex := 0 } := by
  refine ⟨rfl, rfl, rfl, rfl⟩

/-! ## Claims C4 and C5: search matches and the Normal-mode invariant -/

theorem containsSub_nil_needle (hay : List Char) : containsSub hay [] = true := by
  unfold containsSub
  simp [startsWithB]

/-- C4 counterexample: recomputing the match list with the empty query over
the listing `[".." , "a"]` yields `[1]`, not the empty list — the empty
string is a substring of every name, so `update_matches` matches every
non-parent entry. -/
theorem updateMatches_empty_query_counterexample :
    (Prompt.updateMatches [[['.', '.']], [['a']]]
        { query := [], mode := Mode.search, matchList := [],
          currentMatch := 0 }).matchList = [1] := rfl

/-- C4 (amended): recomputing the search match list with the empty query
produces the list of every index except the parent, `[1, …, len-1]` (so it
is empty exactly when the listing holds nothing but the parent entry). -/
theorem matchesFor_empty_query (entries : List FilePath) :
    matchesFor [] entries =
      (List.range (entries.length - 1)).map (fun i => i + 1) := by
  unfold matchesFor
  simp [strLower, containsSub_nil_needle]
  rw [show (fun p : Nat × FilePath => some (p.1 + 1)) =
        some ∘ ((fun i => i + 1) ∘ Prod.fst) from rfl]
  rw [List.filterMap_eq_map, ← List.map_map, List.enum_map_fst,
    List.length_tail]

/-- C5 counterexample: a reachable prompt state violating "Normal implies
empty query and matches".  From a fresh prompt: enter Search mode, type
`'a'` over the listing `["..", "a"]` (matches become `[1]`), then commit
with Enter.  `handle_search` resets only the mode: the resulting state is
`Normal` with query `"a"` and match list `[1]`. -/
theorem normal_mode_nonempty_query_counterexample :
    (Prompt.handleInput (Except.ok ()) '\n' [[['.', '.']], [['a']]] [] none
      (Prompt.handleInput (Except.ok ()) 'a' [[['.', '.']], [['a']]] [] none
        (Prompt.setMode Mode.search Prompt.new)).1.1).1.1 =
    { query := ['a'], mode := Mode.normal, matchList := [1],
      currentMatch := 0 } := by
  decide

/-- C5 (amended): `Normal` entered through `set_mode` (the `Esc` path and
every prompt opening) or at initialization has empty query and empty match
list; but committing a Search with Enter returns to `Normal` keeping the
query and the just-recomputed match list (they feed the next-match
command), so `Normal` does not imply an empty query or match list after
such a commit. -/
theorem setMode_clears_but_search_commit_keeps (p : Prompt)
    (entries : List FilePath) (cp : FilePath) (sp : Option FilePath)
    (hm : p.mode = Mode.search) :
    ((Prompt.setMode Mode.normal p).query = [] ∧
     (Prompt.setMode Mode.normal p).matchList = [] ∧
     Prompt.new.query = [] ∧ Prompt.new.matchList = []) ∧
    ((Prompt.handleInput (Except.ok ()) '\n' entries cp sp p).1.1.mode =
        Mode.normal ∧
     (Prompt.handleInput (Except.ok ()) '\n' entries cp sp p).1.1.query =
        p.query ∧
     (Prompt.handleInput (Except.ok ()) '\n' entries cp sp p).1.1.matchList =
        matchesFor p.query entries) := by
  refine ⟨⟨rfl, rfl, rfl, rfl⟩, ?_⟩
  obtain ⟨q, m, ml, cm⟩ := p
  replace hm : m = Mode.search := hm
  subst hm
  have h1 : Prompt.handleInput (Except.ok ()) '\n' entries cp sp
      { query := q, mode := Mode.search, matchList := ml, currentMatch := cm } =
      (Prompt.handleSearch '\n' entries
        (Prompt.updateMatches entries
          { query := q, mode := Mode.search, matchList := ml,
            currentMatch := cm }), none) := by
    unfold Prompt.handleInput
    dsimp only
    rw [if_pos rfl]
  rw [h1]
  unfold Prompt.handleSearch Prompt.updateMatches
  rw [if_pos rfl]
  dsimp only
  split <;> exact ⟨rfl, rfl, rfl⟩

/-- Witness for `setMode_clears_but_search_commit_keeps` at the Search-mode
prompt with query `"a"` over the listing `["..", "a"]`. -/
theorem setMode_clears_but_search_commit_keeps_witness :
    ((Prompt.mk ['a'] Mode.search [] 0).mode = Mode.search) ∧
    (((Prompt.setMode Mode.normal (Prompt.mk ['a'] Mode.search [] 0)).query = [] ∧
      (Prompt.setMode Mode.normal (Prompt.mk ['a'] Mode.search [] 0)).matchList = [] ∧
      Prompt.new.query = [] ∧ Prompt.new.matchList = []) ∧
     ((Prompt.handleInput (Except.ok ()) '\n' [[['.', '.']], [['a']]] [] none
          (Prompt.mk ['a'] Mode.search [] 0)).1.1.mode = Mode.normal ∧
      (Prompt.handleInput (Except.ok ()) '\n' [[['.', '.']], [['a']]] [] none
          (Prompt.mk ['a'] Mode.search [] 0)).1.1.query = ['a'] ∧
      (Prompt.handleInput (Except.ok ()) '\n' [[['.', '.']], [['a']]] [] none
          (Prompt.mk ['a'] Mode.search [] 0)).1.1.matchList =
        matchesFor ['a'] [[['.', '.']], [['a']]])) :=
  ⟨rfl, setMode_clears_but_search_commit_keeps
    (Prompt.mk ['a'] Mode.search [] 0) [[['.', '.']], [['a']]] [] none rfl⟩

/-! ## Claim C6: the two-step delete gesture -/

/-- C6 (code bug): mouse commands do not clear the pending-delete marker,
so a destructive delete can hit an entry that was never armed.  From a
fresh state over `["..", "a", "b"]` with `"a"` selected: the first `d`
arms the marker on index 1 with no mutation; a mouse click on row 2 moves
the selection to `"b"` but leaves the marker armed (`handle_mouse_event`
never touches `delete_mode`); the next `d` then immediately deletes `"b"`,
an entry on which no delete command was ever armed. -/
theorem mouse_keeps_armed_delete_marker :
    let env : FsEnv :=
      { height := 10, isDir := fun _ => false,
        prep := Except.ok (Operation.delete [['b']] false (some []) 2 none),
        fsCall := Except.ok (), relist := Except.ok [],
        chdir := Except.ok [], editorCall := Except.ok () }
    let ents : List FilePath := [[['.', '.']], [['a']], [['b']]]
    let keyD : KeyEvent := { code := KeyCode.char 'd', ctrl := false }
    let s1 := (ExplorerState.handleKeyEvent env keyD (initialState [] ents 10)).1
    let s2 := (ExplorerState.handleMouseEvent env (MouseEvent.clickLeft 2) s1).1
    let s3 := (ExplorerState.handleKeyEvent env keyD s2).1
    s1.deleteMode = some 1 ∧ s1.entries = ents ∧
    s1.journal = { history := [], historyIndex := 0 } ∧
    s2.deleteMode = some 1 ∧ s2.selected = 2 ∧
    s3.entries = [[['.', '.']], [['a']]] ∧
    s3.journal.history = [Operation.delete [['b']] false (some []) 2 none] ∧
    s3.deleteMode = none := by
  decide

/-! ## Claim C7: the listing order -/

theorem sorted_keyLe_getD (l : List FilePath) (hs : List.Sorted keyLe l)
    (a b : Nat) (hab : a < b) (hb : b < l.length) :
    keyLe (l.getD a []) (l.getD b []) := by
  have ha : a < l.length := lt_trans hab hb
  rw [List.getD_eq_getElem l [] ha, List.getD_eq_getElem l [] hb]
  exact List.pairwise_iff_get.mp hs ⟨a, ha⟩ ⟨b, hb⟩ hab

/-- C7 (confirmed): an unopenable directory propagates its error; children
whose read failed are skipped (`filter_map(ok)`); index 0 of the produced
listing is the synthetic parent entry; and for all indices `0 < i < j`,
either entry `i` lies in the directory segment and entry `j` in the file
segment, or both lie in the same segment and the lowercased name of entry
`i` is `≤` that of entry `j` (positions `1 … dirs.len` hold exactly the
directory children, the rest the file children). -/
theorem readDirEntries_listing (cp : FilePath) (children : List RawChild)
    (raw : List (Except Err RawChild)) (e : Err) (i j : Nat)
    (h0 : 0 < i) (hij : i < j)
    (hj : j < (readDirEntries cp children).length) :
    readDirEntriesE cp (Except.error e) = Except.error e ∧
    readDirEntriesE cp (Except.ok raw) =
      Except.ok (readDirEntries cp (raw.filterMap Except.toOption)) ∧
    (readDirEntries cp children).getD 0 [] = parentEntry cp ∧
    ((i ≤ (readDirDirs cp children).length ∧
        ¬ j ≤ (readDirDirs cp children).length) ∨
     ((i ≤ (readDirDirs cp children).length ↔
         j ≤ (readDirDirs cp children).length) ∧
      keyLe ((readDirEntries cp children).getD i [])
            ((readDirEntries cp children).getD j []))) := by
  refine ⟨rfl, rfl, rfl, ?_⟩
  have hds : List.Sorted keyLe (readDirDirs cp children) :=
    List.sorted_insertionSort keyLe _
  have hfls : List.Sorted keyLe (readDirFiles cp children) :=
    List.sorted_insertionSort keyLe _
  have hlen : (readDirEntries cp children).length =
      1 + ((readDirDirs cp children).length +
           (readDirFiles cp children).length) := by
    simp [readDirEntries]
    omega
  obtain ⟨i', rfl⟩ : ∃ i', i = i' + 1 := ⟨i - 1, by omega⟩
  obtain ⟨j', rfl⟩ : ∃ j', j = j' + 1 := ⟨j - 1, by omega⟩
  have hout : readDirEntries cp children =
      parentEntry cp :: (readDirDirs cp children ++ readDirFiles cp children) :=
    rfl
  by_cases hjd : j' + 1 ≤ (readDirDirs cp children).length
  · right
    have hid : i' + 1 ≤ (readDirDirs cp children).length := by omega
    refine ⟨by tauto, ?_⟩
    rw [hout, List.getD_cons_succ, List.getD_cons_succ,
      List.getD_append _ _ _ _ (by omega), List.getD_append _ _ _ _ (by omega)]
    exact sorted_keyLe_getD _ hds i' j' (by omega) (by omega)
  · by_cases hid : i' + 1 ≤ (readDirDirs cp children).length
    · exact Or.inl ⟨hid, hjd⟩
    · right
      refine ⟨by tauto, ?_⟩
      rw [hout, List.getD_cons_succ, List.getD_cons_succ,
        List.getD_append_right _ _ _ _ (by omega),
        List.getD_append_right _ _ _ _ (by omega)]
      rw [hout] at hj
      simp only [List.length_cons, List.length_append] at hj
      exact sorted_keyLe_getD _ hfls _ _ (by omega) (by omega)

/-- Witness for `readDirEntries_listing` over the directory with children
`b/` (a directory) and `a` (a file), at `i = 1`, `j = 2`. -/
theorem readDirEntries_listing_witness :
    0 < 1 ∧ 1 < 2 ∧
    2 < (readDirEntries [] [RawChild.mk ['b'] true, RawChild.mk ['a'] false]).length ∧
    (readDirEntriesE [] (Except.error Err.ioError) = Except.error Err.ioError ∧
     readDirEntriesE [] (Except.ok []) =
       Except.ok (readDirEntries []
         (([] : List (Except Err RawChild)).filterMap Except.toOption)) ∧
     (readDirEntries [] [RawChild.mk ['b'] true,
        RawChild.mk ['a'] false]).getD 0 [] = parentEntry [] ∧
     ((1 ≤ (readDirDirs [] [RawChild.mk ['b'] true,
          RawChild.mk ['a'] false]).length ∧
        ¬ 2 ≤ (readDirDirs [] [RawChild.mk ['b'] true,
          RawChild.mk ['a'] false]).length) ∨
      ((1 ≤ (readDirDirs [] [RawChild.mk ['b'] true,
           RawChild.mk ['a'] false]).length ↔
          2 ≤ (readDirDirs [] [RawChild.mk ['b'] true,
           RawChild.mk ['a'] false]).length) ∧
       keyLe ((readDirEntries [] [RawChild.mk ['b'] true,
            RawChild.mk ['a'] false]).getD 1 [])
             ((readDirEntries [] [RawChild.mk ['b'] true,
            RawChild.mk ['a'] false]).getD 2 [])))) :=
  ⟨by decide, by decide, by decide,
    readDirEntries_listing [] [RawChild.mk ['b'] true, RawChild.mk ['a'] false]
      [] Err.ioError 1 2 (by decide) (by decide) (by decide)⟩

/-! ## Claim C10: selection after a create commit -/

theorem mem_readDirDirs (cp : FilePath) (children : List RawChild)
    (p : FilePath) (hp : p ∈ readDirDirs cp children) :
    ∃ c ∈ children, c.isDir = true ∧ p = cp ++ [c.name] := by
  unfold readDirDirs at hp
  rw [(List.perm_insertionSort keyLe _).mem_iff] at hp
  simp only [List.mem_map, List.mem_filter] at hp
  obtain ⟨c, ⟨hc, hcd⟩, rfl⟩ := hp
  exact ⟨c, hc, by simpa using hcd, rfl⟩

theorem mem_readDirFiles (cp : FilePath) (children : List RawChild)
    (p : FilePath) (hp : p ∈ readDirFiles cp children) :
    ∃ c ∈ children, c.isDir = false ∧ p = cp ++ [c.name] := by
  unfold readDirFiles at hp
  rw [(List.perm_insertionSort keyLe _).mem_iff] at hp
  simp only [List.mem_map, List.mem_filter] at hp
  obtain ⟨c, ⟨hc, hcd⟩, rfl⟩ := hp
  exact ⟨c, hc, by simpa using hcd, rfl⟩

/-- C10 (confirmed): a successful create commit sets the selection to the
last index of the rebuilt listing, `entries.len() - 1`, regardless of where
the created entry sorts; and when the directory contains at least one file,
the last listing entry is a file child, so a created directory (which lies
in the directory segment) is not the selected entry. -/
theorem create_selects_last_entry (env : FsEnv) (op : Operation)
    (s : ExplorerState) (es : List FilePath) (cp : FilePath)
    (children : List RawChild) (createdPath : FilePath)
    (hr : env.relist = Except.ok es)
    (hfile : readDirFiles cp children ≠ [])
    (hnd : (children.map RawChild.name).Nodup)
    (hcd : createdPath ∈ readDirDirs cp children) :
    (ExplorerState.handleModeAction env (ModeAction.createEntry op) s).1.selected
      = es.length - 1 ∧
    (readDirEntries cp children).getD
      ((readDirEntries cp children).length - 1) [] ∈ readDirFiles cp children ∧
    (readDirEntries cp children).getD
      ((readDirEntries cp children).length - 1) [] ≠ createdPath := by
  have hsel : (ExplorerState.handleModeAction env
      (ModeAction.createEntry op) s).1.selected = es.length - 1 := by
    unfold ExplorerState.handleModeAction
    rw [hr]
    rfl
  have hout : readDirEntries cp children =
      parentEntry cp :: (readDirDirs cp children ++ readDirFiles cp children) :=
    rfl
  obtain ⟨m, hm⟩ : ∃ m, (readDirFiles cp children).length = m + 1 := by
    have := List.length_pos.mpr hfile
    exact ⟨(readDirFiles cp children).length - 1, by omega⟩
  have hidx : (readDirEntries cp children).length - 1 =
      ((readDirDirs cp children).length + m) + 1 := by
    rw [hout]
    simp only [List.length_cons, List.length_append, hm]
    omega
  have hlast : (readDirEntries cp children).getD
      ((readDirEntries cp children).length - 1) [] ∈
      readDirFiles cp children := by
    rw [hidx, hout, List.getD_cons_succ,
      List.getD_append_right _ _ _ _ (by omega)]
    have h2 : (readDirDirs cp children).length + m -
        (readDirDirs cp children).length = m := by omega
    rw [h2, List.getD_eq_getElem _ _ (by omega)]
    exact List.getElem_mem _
  refine ⟨hsel, hlast, ?_⟩
  intro heq
  rw [heq] at hlast
  obtain ⟨c, hc, hcdir, hcp⟩ := mem_readDirDirs cp children createdPath hcd
  obtain ⟨c', hc', hcfile, hcp'⟩ :=
    mem_readDirFiles cp children createdPath hlast
  have hname : c.name = c'.name := by
    have h3 : cp ++ [c.name] = cp ++ [c'.name] := by rw [← hcp, ← hcp']
    have h4 := List.append_cancel_left h3
    simpa using h4
  have hcc : c = c' := List.inj_on_of_nodup_map hnd hc hc' hname
  rw [hcc, hcfile] at hcdir
  exact Bool.false_ne_true hcdir

/-- Witness for `create_selects_last_entry` over the directory with a
directory child `d/` and a file child `a`, the created path being `d`. -/
theorem create_selects_last_entry_witness :
    (let env : FsEnv :=
      { height := 10, isDir := fun _ => false,
        prep := Except.ok (Operation.create [['d']] true),
        fsCall := Except.ok (),
        relist := Except.ok [[['.', '.']], [['d']], [['a']]],
        chdir := Except.ok [], editorCall := Except.ok () }
     let children := [RawChild.mk ['d'] true, RawChild.mk ['a'] false]
     env.relist = Except.ok [[['.', '.']], [['d']], [['a']]] ∧
     readDirFiles [] children ≠ [] ∧
     (children.map RawChild.name).Nodup ∧
     [['d']] ∈ readDirDirs [] children ∧
     ((ExplorerState.handleModeAction env
        (ModeAction.createEntry (Operation.create [['d']] true))
        (initialState [] [[['.', '.']]] 10)).1.selected =
        ([[['.', '.']], [['d']], [['a']]] : List FilePath).length - 1 ∧
      (readDirEntries [] children).getD
        ((readDirEntries [] children).length - 1) [] ∈ readDirFiles [] children ∧
      (readDirEntries [] children).getD
        ((readDirEntries [] children).length - 1) [] ≠ [['d']])) :=
  ⟨rfl, by decide, by decide, by decide,
    create_selects_last_entry _ (Operation.create [['d']] true)
      (initialState [] [[['.', '.']]] 10) [[['.', '.']], [['d']], [['a']]] []
      [RawChild.mk ['d'] true, RawChild.mk ['a'] false] [['d']]
      rfl (by decide) (by decide) (by decide)⟩

/-! ## Claim C3: delete-then-undo round trip -/

/-- A path is the root or lies strictly under it. -/
def underRoot (root q : FilePath) : Prop := q.take root.length = root

theorem FsState.ext2 (a b : FsState) (h1 : a.dirs = b.dirs)
    (h2 : a.files = b.files) : a = b := by
  cases a; cases b; simp_all

theorem mem_ancestors (q p : FilePath) :
    q ∈ ancestors p ↔ ∃ k, 0 < k ∧ k ≤ p.length ∧ q = p.take k := by
  unfold ancestors
  simp only [List.mem_map, List.mem_range]
  constructor
  · rintro ⟨k, hk, rfl⟩
    exact ⟨k + 1, by omega, by omega, rfl⟩
  · rintro ⟨k, hk0, hkl, rfl⟩
    exact ⟨k - 1, by omega, by rw [Nat.sub_add_cancel hk0]⟩

theorem self_mem_ancestors (p : FilePath) (hp : p ≠ []) : p ∈ ancestors p := by
  rw [mem_ancestors]
  refine ⟨p.length, ?_, le_refl _, (List.take_length p).symm⟩
  cases p with
  | nil => exact absurd rfl hp
  | cons a l => simp

theorem mem_dirs_createDirAll (p q : FilePath) (st : FsState) :
    q ∈ (createDirAll p st).dirs ↔ q ∈ st.dirs ∨ q ∈ ancestors p := by
  unfold createDirAll
  simp only [List.mem_append, List.mem_filter, decide_eq_true_eq]
  constructor
  · rintro (h | ⟨h, _⟩)
    · exact Or.inl h
    · exact Or.inr h
  · rintro (h | h)
    · exact Or.inl h
    · by_cases hq : q ∈ st.dirs
      · exact Or.inl hq
      · exact Or.inr ⟨h, hq⟩

theorem files_createDirAll (p : FilePath) (st : FsState) :
    (createDirAll p st).files = st.files := rfl

theorem dirs_writeFile (p : FilePath) (b : List Nat) (st : FsState) :
    (writeFile p b st).dirs = st.dirs := rfl

theorem setAssoc_of_not_mem (p : FilePath) (b : List Nat)
    (l : List (FilePath × List Nat)) (h : ∀ e ∈ l, e.1 ≠ p) :
    setAssoc p b l = l ++ [(p, b)] := by
  induction l with
  | nil => rfl
  | cons e rest ih =>
    unfold setAssoc
    rw [if_neg (h e (List.mem_cons_self e rest))]
    rw [ih (fun e2 he2 => h e2 (List.mem_cons_of_mem e he2))]
    rfl

theorem getAssoc_cons (q : FilePath) (e : FilePath × List Nat)
    (rest : List (FilePath × List Nat)) :
    getAssoc q (e :: rest) =
      if e.1 = q then some e.2 else getAssoc q rest := rfl

theorem getAssoc_filter_ne (p q : FilePath) (l : List (FilePath × List Nat))
    (hne : q ≠ p) :
    getAssoc q (l.filter (fun e => decide (e.1 ≠ p))) = getAssoc q l := by
  induction l with
  | nil => rfl
  | cons e rest ih =>
    by_cases he : e.1 = p
    · rw [List.filter_cons_of_neg (by simp [he])]
      rw [getAssoc_cons, if_neg (by rw [he]; exact fun hc => hne hc.symm), ih]
    · rw [List.filter_cons_of_pos (by simp [he])]
      rw [getAssoc_cons, getAssoc_cons]
      by_cases heq : e.1 = q
      · rw [if_pos heq, if_pos heq]
      · rw [if_neg heq, if_neg heq, ih]

theorem getAssoc_append_right (p : FilePath) (l1 l2 : List (FilePath × List Nat))
    (h : ∀ e ∈ l1, e.1 ≠ p) :
    getAssoc p (l1 ++ l2) = getAssoc p l2 := by
  induction l1 with
  | nil => rfl
  | cons e rest ih =>
    rw [List.cons_append, getAssoc_cons,
      if_neg (h e (List.mem_cons_self e rest))]
    exact ih (fun e2 he2 => h e2 (List.mem_cons_of_mem e he2))

theorem backupDirContents_spec (rel : FilePath) (cs : List (Name × FsTree))
    (acc : DirBackup) :
    backupDirContents rel cs acc =
      { files := acc.files ++ (treeFiles cs).map (fun e => (rel ++ e.1, e.2)),
        dirs := acc.dirs ++ (treeDirs cs).map (fun d => rel ++ d) } := by
  induction rel, cs, acc using backupDirContents.induct with
  | case1 rel acc => simp [backupDirContents, treeFiles, treeDirs]
  | case2 rel n bytes rest acc ih =>
    rw [backupDirContents, ih]
    simp [treeFiles, treeDirs]
  | case3 rel n sub rest acc a1 a2 h1 h2 h3 =>
    unfold a2 a1 at h3
    rw [backupDirContents, h3, h2]
    simp [treeFiles, treeDirs, List.map_map, List.map_append,
      List.append_assoc, List.singleton_append, Function.comp_def]

theorem backupDir_spec (cs : List (Name × FsTree)) :
    backupDir cs = { files := treeFiles cs, dirs := treeDirs cs } := by
  rw [backupDir, backupDirContents_spec]
  simp

theorem treeFiles_key_shape (cs : List (Name × FsTree)) (fp : FilePath)
    (b : List Nat) (h : (fp, b) ∈ treeFiles cs) :
    ∃ nm t, (nm, t) ∈ cs ∧ ∃ rest, fp = nm :: rest := by
  induction cs using treeFiles.induct with
  | case1 => simp [treeFiles] at h
  | case2 n bytes rest ih =>
    rw [treeFiles] at h
    rcases List.mem_cons.mp h with h | h
    · obtain ⟨h1, _⟩ := Prod.mk.injEq .. ▸ h
      injection h with h1 h2
      exact ⟨n, FsTree.file bytes, List.mem_cons_self _ _, [],
        by rw [← h1]⟩
    · obtain ⟨nm, t, hmem, r, hr⟩ := ih h
      exact ⟨nm, t, List.mem_cons_of_mem _ hmem, r, hr⟩
  | case3 n sub rest ih1 ih2 =>
    rw [treeFiles] at h
    rcases List.mem_append.mp h with h | h
    · obtain ⟨⟨p, b2⟩, hmem, heq⟩ := List.mem_map.mp h
      injection heq with h1 h2
      exact ⟨n, FsTree.dir sub, List.mem_cons_self _ _, p, by rw [← h1]⟩
    · obtain ⟨nm, t, hmem, r, hr⟩ := ih2 h
      exact ⟨nm, t, List.mem_cons_of_mem _ hmem, r, hr⟩

theorem treeDirs_key_shape (cs : List (Name × FsTree)) (d : FilePath)
    (h : d ∈ treeDirs cs) :
    ∃ nm t, (nm, t) ∈ cs ∧ ∃ rest, d = nm :: rest := by
  induction cs using treeDirs.induct with
  | case1 => simp [treeDirs] at h
  | case2 n bytes rest ih =>
    rw [treeDirs] at h
    obtain ⟨nm, t, hmem, r, hr⟩ := ih h
    exact ⟨nm, t, List.mem_cons_of_mem _ hmem, r, hr⟩
  | case3 n sub rest ih1 ih2 =>
    rw [treeDirs] at h
    rcases List.mem_append.mp h with h | h
    · rcases List.mem_cons.mp h with h | h
      · exact ⟨n, FsTree.dir sub, List.mem_cons_self _ _, [], h⟩
      · obtain ⟨d2, _, hd2⟩ := List.mem_map.mp h
        exact ⟨n, FsTree.dir sub, List.mem_cons_self _ _, d2, hd2.symm⟩
    · obtain ⟨nm, t, hmem, r, hr⟩ := ih2 h
      exact ⟨nm, t, List.mem_cons_of_mem _ hmem, r, hr⟩

theorem treeFiles_key_prefix_dir (cs : List (Name × FsTree)) :
    ∀ fp b, (fp, b) ∈ treeFiles cs →
      ∀ k, 0 < k → k < fp.length → fp.take k ∈ treeDirs cs := by
  induction cs using treeFiles.induct with
  | case1 => intro fp b h; simp [treeFiles] at h
  | case2 n bytes rest ih =>
    intro fp b h k hk0 hkl
    rw [treeFiles] at h
    rcases List.mem_cons.mp h with h | h
    · injection h with h1 h2
      subst h1
      simp at hkl
      omega
    · rw [treeDirs]
      exact ih fp b h k hk0 hkl
  | case3 n sub rest ih1 ih2 =>
    intro fp b h k hk0 hkl
    rw [treeFiles] at h
    rw [treeDirs]
    rcases List.mem_append.mp h with h | h
    · obtain ⟨⟨p, b2⟩, hmem, heq⟩ := List.mem_map.mp h
      injection heq with h1 h2
      subst h1
      obtain ⟨k2, rfl⟩ : ∃ k2, k = k2 + 1 := ⟨k - 1, by omega⟩
      rw [List.take_succ_cons]
      rcases Nat.eq_zero_or_pos k2 with hz | hpos
      · subst hz
        exact List.mem_append_left _ (List.mem_cons_self _ _)
      · refine List.mem_append_left _ (List.mem_cons_of_mem _ ?_)
        refine List.mem_map.mpr ⟨p.take k2, ?_, rfl⟩
        exact ih1 p b2 hmem k2 hpos (by simp at hkl; omega)
    · exact List.mem_append_right _ (ih2 fp b h k hk0 hkl)

theorem treeDirs_prefix_dir (cs : List (Name × FsTree)) :
    ∀ d, d ∈ treeDirs cs →
      ∀ k, 0 < k → k ≤ d.length → d.take k ∈ treeDirs cs := by
  induction cs using treeDirs.induct with
  | case1 => intro d h; simp [treeDirs] at h
  | case2 n bytes rest ih =>
    intro d h
    rw [treeDirs] at h ⊢
    exact ih d h
  | case3 n sub rest ih1 ih2 =>
    intro d h k hk0 hkl
    rw [treeDirs] at h ⊢
    rcases List.mem_append.mp h with h | h
    · rcases List.mem_cons.mp h with h | h
      · subst h
        simp at hkl
        have hk1 : k = 1 := by omega
        subst hk1
        exact List.mem_append_left _ (List.mem_cons_self _ _)
      · obtain ⟨d2, hmem, hd2⟩ := List.mem_map.mp h
        subst hd2
        obtain ⟨k2, rfl⟩ : ∃ k2, k = k2 + 1 := ⟨k - 1, by omega⟩
        rw [List.take_succ_cons]
        rcases Nat.eq_zero_or_pos k2 with hz | hpos
        · subst hz
          exact List.mem_append_left _ (List.mem_cons_self _ _)
        · refine List.mem_append_left _ (List.mem_cons_of_mem _ ?_)
          refine List.mem_map.mpr ⟨d2.take k2, ?_, rfl⟩
          exact ih1 d2 hmem k2 hpos (by simp at hkl; omega)
    · exact List.mem_append_right _ (ih2 d h k hk0 hkl)

theorem treeFiles_key_ne_nil (cs : List (Name × FsTree)) (fp : FilePath)
    (b : List Nat) (h : (fp, b) ∈ treeFiles cs) : fp ≠ [] := by
  obtain ⟨nm, t, _, r, hr⟩ := treeFiles_key_shape cs fp b h
  rw [hr]
  exact List.cons_ne_nil nm r

theorem pathParent_of_ne_nil (p : FilePath) (hp : p ≠ []) :
    pathParent p = some p.dropLast := by
  cases p with
  | nil => exact absurd rfl hp
  | cons a l => rfl

theorem files_restoreFileStep (root : FilePath) (acc : FsState)
    (e : FilePath × List Nat) :
    (restoreFileStep root acc e).files =
      setAssoc (root ++ e.1) e.2 acc.files := by
  cases hp : pathParent (root ++ e.1) <;>
    simp [restoreFileStep, hp, writeFile, files_createDirAll]

theorem dirs_restoreFileStep (root : FilePath) (acc : FsState)
    (e : FilePath × List Nat) (q : FilePath) (he : root ++ e.1 ≠ []) :
    q ∈ (restoreFileStep root acc e).dirs ↔
      q ∈ acc.dirs ∨ q ∈ ancestors ((root ++ e.1).dropLast) := by
  simp only [restoreFileStep, pathParent_of_ne_nil _ he, dirs_writeFile]
  exact mem_dirs_createDirAll _ _ _

theorem files_writeFold (root : FilePath) (l : List (FilePath × List Nat))
    (st : FsState)
    (hnew : ∀ e ∈ l, ∀ e2 ∈ st.files, e2.1 ≠ root ++ e.1)
    (hnd : (l.map (fun e => root ++ e.1)).Nodup) :
    (l.foldl (restoreFileStep root) st).files =
      st.files ++ l.map (fun e => (root ++ e.1, e.2)) := by
  induction l generalizing st with
  | nil => simp
  | cons e rest ih =>
    rw [List.foldl_cons]
    have hstep : (restoreFileStep root st e).files =
        st.files ++ [(root ++ e.1, e.2)] := by
      rw [files_restoreFileStep]
      exact setAssoc_of_not_mem _ _ _
        (fun e2 he2 => hnew e (List.mem_cons_self _ _) e2 he2)
    have hnew2 : ∀ e3 ∈ rest, ∀ e2 ∈ (restoreFileStep root st e).files,
        e2.1 ≠ root ++ e3.1 := by
      intro e3 he3 e2 he2
      rw [hstep] at he2
      rcases List.mem_append.mp he2 with h2 | h2
      · exact hnew e3 (List.mem_cons_of_mem _ he3) e2 h2
      · simp at h2
        rw [h2]
        intro hc
        have hmm : root ++ e.1 ∈ rest.map (fun e => root ++ e.1) :=
          List.mem_map.mpr ⟨e3, he3, hc.symm⟩
        exact (List.nodup_cons.mp hnd).1 hmm
    rw [ih _ hnew2 (List.nodup_cons.mp hnd).2, hstep]
    simp

theorem dirs_writeFold (root : FilePath) (l : List (FilePath × List Nat))
    (st : FsState) (q : FilePath)
    (hne : ∀ e ∈ l, root ++ e.1 ≠ []) :
    q ∈ (l.foldl (restoreFileStep root) st).dirs ↔
      q ∈ st.dirs ∨ ∃ e ∈ l, q ∈ ancestors ((root ++ e.1).dropLast) := by
  induction l generalizing st with
  | nil => simp
  | cons e rest ih =>
    rw [List.foldl_cons]
    rw [ih _ (fun e3 he3 => hne e3 (List.mem_cons_of_mem _ he3))]
    rw [dirs_restoreFileStep root st e q (hne e (List.mem_cons_self _ _))]
    constructor
    · rintro ((h | h) | ⟨e3, he3, h3⟩)
      · exact Or.inl h
      · exact Or.inr ⟨e, List.mem_cons_self _ _, h⟩
      · exact Or.inr ⟨e3, List.mem_cons_of_mem _ he3, h3⟩
    · rintro (h | ⟨e3, he3, h3⟩)
      · exact Or.inl (Or.inl h)
      · rcases List.mem_cons.mp he3 with h4 | h4
        · subst h4
          exact Or.inl (Or.inr h3)
        · exact Or.inr ⟨e3, h4, h3⟩

theorem files_dirFold (root : FilePath) (ds : List FilePath) (st : FsState) :
    (ds.foldl (restoreDirStep root) st).files = st.files := by
  induction ds generalizing st with
  | nil => rfl
  | cons d rest ih =>
    rw [List.foldl_cons, ih]
    rfl

theorem dirs_dirFold (root : FilePath) (ds : List FilePath) (st : FsState)
    (q : FilePath) :
    q ∈ (ds.foldl (restoreDirStep root) st).dirs ↔
      q ∈ st.dirs ∨ ∃ d ∈ ds, q ∈ ancestors (root ++ d) := by
  induction ds generalizing st with
  | nil => simp
  | cons d rest ih =>
    rw [List.foldl_cons, ih]
    unfold restoreDirStep
    rw [mem_dirs_createDirAll]
    constructor
    · rintro ((h | h) | ⟨d3, hd3, h3⟩)
      · exact Or.inl h
      · exact Or.inr ⟨d, List.mem_cons_self _ _, h⟩
      · exact Or.inr ⟨d3, List.mem_cons_of_mem _ hd3, h3⟩
    · rintro (h | ⟨d3, hd3, h3⟩)
      · exact Or.inl (Or.inl h)
      · rcases List.mem_cons.mp hd3 with h4 | h4
        · subst h4
          exact Or.inl (Or.inr h3)
        · exact Or.inr ⟨d3, h4, h3⟩

theorem mem_keys_treeFiles (cs : List (Name × FsTree)) (x : FilePath)
    (h : x ∈ (treeFiles cs).map Prod.fst) :
    ∃ nm t, (nm, t) ∈ cs ∧ ∃ rest, x = nm :: rest := by
  obtain ⟨e, he, hex⟩ := List.mem_map.mp h
  obtain ⟨nm, t, hmem, r, hr⟩ := treeFiles_key_shape cs e.1 e.2 (by
    have : e = (e.1, e.2) := rfl
    rw [← this]; exact he)
  exact ⟨nm, t, hmem, r, by rw [← hex, hr]⟩

theorem treeFiles_keys_nodup_aux (cs : List (Name × FsTree))
    (hnd : (cs.map Prod.fst).Nodup)
    (horacle : ∀ e ∈ cs, ∀ sub, e.2 = FsTree.dir sub →
      ((treeFiles sub).map Prod.fst).Nodup) :
    ((treeFiles cs).map Prod.fst).Nodup := by
  induction cs with
  | nil => simp [treeFiles]
  | cons hd rest ih =>
    obtain ⟨n, t⟩ := hd
    have hnd2 := List.nodup_cons.mp
      (show (n :: rest.map Prod.fst).Nodup from hnd)
    have hnR : n ∉ rest.map Prod.fst := hnd2.1
    have hndR : (rest.map Prod.fst).Nodup := hnd2.2
    have ihR := ih hndR
      (fun e he sub hsub => horacle e (List.mem_cons_of_mem _ he) sub hsub)
    cases t with
    | file bytes =>
      rw [treeFiles]
      simp only [List.map_cons]
      refine List.nodup_cons.mpr ⟨?_, ihR⟩
      intro hc
      obtain ⟨nm, t2, hmem, r, hr⟩ := mem_keys_treeFiles rest [n] hc
      injection hr with h1 h2
      exact hnR (by rw [h1]; exact List.mem_map.mpr ⟨(nm, t2), hmem, rfl⟩)
    | dir sub =>
      rw [treeFiles]
      rw [List.map_append, List.map_map]
      refine List.Nodup.append ?_ ihR ?_
      · have hsub : ((treeFiles sub).map Prod.fst).Nodup :=
          horacle (n, FsTree.dir sub) (List.mem_cons_self _ _) sub rfl
        have hinj : Function.Injective (fun p : FilePath => n :: p) :=
          fun a b hab => by injection hab
        have : (Prod.fst ∘ fun e : FilePath × List Nat => ((n :: e.1, e.2) : FilePath × List Nat))
            = (fun p : FilePath => n :: p) ∘ Prod.fst := rfl
        rw [this, ← List.map_map]
        exact List.Nodup.map hinj hsub
      · intro x hx1 hx2
        obtain ⟨e, he, hex⟩ := List.mem_map.mp hx1
        obtain ⟨nm, t2, hmem, r, hr⟩ := mem_keys_treeFiles rest x hx2
        rw [hr] at hex
        have hx : (Prod.fst ∘ fun e : FilePath × List Nat =>
            ((n :: e.1, e.2) : FilePath × List Nat)) e = n :: e.1 := rfl
        rw [hx] at hex
        injection hex with h1 h2
        exact hnR (by rw [h1]; exact List.mem_map.mpr ⟨(nm, t2), hmem, rfl⟩)

theorem wf_treeFiles_keys_nodup (t : FsTree) (h : WfTree t) :
    ∀ cs, t = FsTree.dir cs → ((treeFiles cs).map Prod.fst).Nodup := by
  induction h with
  | file b => intro cs hc; cases hc
  | dir cs hnd hmem ih =>
    intro cs2 hc
    injection hc with hc
    subst hc
    exact treeFiles_keys_nodup_aux cs hnd
      (fun e he sub hsub => ih e he sub hsub)

theorem getAssoc_append (q : FilePath) (l1 l2 : List (FilePath × List Nat)) :
    getAssoc q (l1 ++ l2) =
      match getAssoc q l1 with
      | some v => some v
      | none => getAssoc q l2 := by
  induction l1 with
  | nil => rfl
  | cons e rest ih =>
    rw [List.cons_append, getAssoc_cons, getAssoc_cons]
    by_cases he : e.1 = q
    · simp [he]
    · simp only [if_neg he]
      exact ih

theorem restoreDeletedPath_dir (p : FilePath) (content : Option (List Nat))
    (b : DirBackup) (st : FsState) :
    restoreDeletedPath p true content (some b) st =
      b.dirs.foldl (restoreDirStep p)
        (b.files.foldl (restoreFileStep p) (createDirAll p st)) := rfl

theorem restoreDeletedPath_file (p : FilePath) (data : List Nat)
    (backup : Option DirBackup) (st : FsState) :
    restoreDeletedPath p false (some data) backup st =
      writeFile p data
        (match pathParent p with
         | some par => if decide (par ∈ st.dirs) then st else createDirAll par st
         | none => st) := rfl

theorem removeSubtree_adjoinSubtree (root : FilePath)
    (cs : List (Name × FsTree)) (st0 : FsState)
    (hambF : ∀ e ∈ st0.files, ¬ underRoot root e.1)
    (hambD : ∀ q ∈ st0.dirs, ¬ underRoot root q) :
    removeSubtree root (adjoinSubtree root cs st0) = st0 := by
  apply FsState.ext2
  · show ((st0.dirs ++ [root]) ++
        (treeDirs cs).map (fun d => root ++ d)).filter
          (fun q => decide (q.take root.length ≠ root)) = st0.dirs
    rw [List.filter_append, List.filter_append]
    have h1 : st0.dirs.filter
        (fun q => decide (q.take root.length ≠ root)) = st0.dirs :=
      List.filter_eq_self.mpr (fun q hq => by
        simp only [decide_eq_true_eq]
        exact hambD q hq)
    have h2 : [root].filter
        (fun q => decide (q.take root.length ≠ root)) = [] := by
      simp [List.take_length]
    have h3 : ((treeDirs cs).map (fun d => root ++ d)).filter
        (fun q => decide (q.take root.length ≠ root)) = [] := by
      rw [List.filter_eq_nil_iff]
      intro q hq
      obtain ⟨d, hd, rfl⟩ := List.mem_map.mp hq
      simp [List.take_left]
    rw [h1, h2, h3]
    simp
  · show (st0.files ++
        (treeFiles cs).map (fun e => (root ++ e.1, e.2))).filter
          (fun e => decide (e.1.take root.length ≠ root)) = st0.files
    rw [List.filter_append]
    have h1 : st0.files.filter
        (fun e => decide (e.1.take root.length ≠ root)) = st0.files :=
      List.filter_eq_self.mpr (fun e he => by
        simp only [decide_eq_true_eq]
        exact hambF e he)
    have h3 : ((treeFiles cs).map (fun e => (root ++ e.1, e.2))).filter
        (fun e => decide (e.1.take root.length ≠ root)) = [] := by
      rw [List.filter_eq_nil_iff]
      intro e2 he2
      obtain ⟨e, he, rfl⟩ := List.mem_map.mp he2
      simp [List.take_left]
    rw [h1, h3]
    simp

theorem restore_dir_files (root : FilePath) (cs : List (Name × FsTree))
    (st0 : FsState) (hwf : WfTree (FsTree.dir cs))
    (hambF : ∀ e ∈ st0.files, ¬ underRoot root e.1) :
    (restoreDeletedPath root true none (some (backupDir cs)) st0).files =
      (adjoinSubtree root cs st0).files := by
  rw [restoreDeletedPath_dir, backupDir_spec]
  rw [files_dirFold]
  have hnew : ∀ e ∈ treeFiles cs, ∀ e2 ∈ (createDirAll root st0).files,
      e2.1 ≠ root ++ e.1 := by
    intro e he e2 he2 hc
    rw [files_createDirAll] at he2
    apply hambF e2 he2
    unfold underRoot
    rw [hc]
    exact List.take_left root e.1
  have hnd : ((treeFiles cs).map (fun e => root ++ e.1)).Nodup := by
    have hkeys := wf_treeFiles_keys_nodup _ hwf cs rfl
    have heq : (treeFiles cs).map (fun e => root ++ e.1) =
        ((treeFiles cs).map Prod.fst).map (fun p => root ++ p) := by
      rw [List.map_map]
      rfl
    rw [heq]
    exact hkeys.map (fun a b hab => List.append_cancel_left hab)
  rw [files_writeFold root (treeFiles cs) (createDirAll root st0) hnew hnd]
  rw [files_createDirAll]
  rfl

theorem restore_dir_dirs (root : FilePath) (cs : List (Name × FsTree))
    (st0 : FsState) (hroot : root ≠ [])
    (hanc : ∀ k, 0 < k → k < root.length → root.take k ∈ st0.dirs)
    (q : FilePath) :
    (q ∈ (restoreDeletedPath root true none (some (backupDir cs)) st0).dirs ↔
      q ∈ (adjoinSubtree root cs st0).dirs) := by
  rw [restoreDeletedPath_dir, backupDir_spec]
  have hne : ∀ e ∈ treeFiles cs, root ++ e.1 ≠ [] := by
    intro e _ hc
    rw [List.append_eq_nil] at hc
    exact hroot hc.1
  rw [dirs_dirFold, dirs_writeFold _ _ _ _ hne, mem_dirs_createDirAll]
  have hadj : q ∈ (adjoinSubtree root cs st0).dirs ↔
      (q ∈ st0.dirs ∨ q = root ∨ ∃ d ∈ treeDirs cs, q = root ++ d) := by
    show q ∈ (st0.dirs ++ [root]) ++ (treeDirs cs).map (fun d => root ++ d) ↔ _
    simp only [List.mem_append, List.mem_singleton, List.mem_map]
    constructor
    · rintro ((h | h) | ⟨d, hd, rfl⟩)
      · exact Or.inl h
      · exact Or.inr (Or.inl h)
      · exact Or.inr (Or.inr ⟨d, hd, rfl⟩)
    · rintro (h | h | ⟨d, hd, rfl⟩)
      · exact Or.inl (Or.inl h)
      · exact Or.inl (Or.inr h)
      · exact Or.inr ⟨d, hd, rfl⟩
  rw [hadj]
  -- a prefix of root that is not root itself lies in the ambient dirs
  have hroot_pre : ∀ q2, q2 ∈ ancestors root →
      (q2 = root ∨ q2 ∈ st0.dirs) := by
    intro q2 hq2
    rw [mem_ancestors] at hq2
    obtain ⟨k, hk0, hkl, rfl⟩ := hq2
    rcases eq_or_lt_of_le hkl with heq | hlt
    · subst heq
      exact Or.inl (List.take_length root)
    · exact Or.inr (hanc k hk0 hlt)
  -- an ancestor of root ++ r (r a subtree path closed under prefixes)
  have hsplit : ∀ (r : FilePath) q2, q2 ∈ ancestors (root ++ r) →
      (q2 = root ∨ q2 ∈ st0.dirs ∨
        ∃ k, 0 < k ∧ k ≤ r.length ∧ q2 = root ++ r.take k) := by
    intro r q2 hq2
    rw [mem_ancestors] at hq2
    obtain ⟨k, hk0, hkl, rfl⟩ := hq2
    rw [List.length_append] at hkl
    by_cases hks : k ≤ root.length
    · rw [List.take_append_of_le_length hks]
      rcases eq_or_lt_of_le hks with heq | hlt
      · subst heq
        exact Or.inl (List.take_length root)
      · exact Or.inr (Or.inl (hanc k hk0 hlt))
    · push_neg at hks
      obtain ⟨k2, rfl⟩ : ∃ k2, k = root.length + k2 :=
        ⟨k - root.length, by omega⟩
      rw [List.take_append]
      exact Or.inr (Or.inr ⟨k2, by omega, by omega, rfl⟩)
  constructor
  · rintro (((h | h) | ⟨e, he, h⟩) | ⟨d, hd, h⟩)
    · exact Or.inl h
    · rcases hroot_pre q h with h2 | h2
      · exact Or.inr (Or.inl h2)
      · exact Or.inl h2
    · -- ancestor of the parent directory of a backed-up file
      have hfp : e.1 ≠ [] := treeFiles_key_ne_nil cs e.1 e.2 (by
        have : e = (e.1, e.2) := rfl
        rw [← this]; exact he)
      rw [List.dropLast_append_of_ne_nil _ hfp] at h
      rcases hsplit e.1.dropLast q h with h2 | h2 | ⟨k, hk0, hkl, rfl⟩
      · exact Or.inr (Or.inl h2)
      · exact Or.inl h2
      · refine Or.inr (Or.inr ⟨e.1.take k, ?_, ?_⟩)
        · apply treeFiles_key_prefix_dir cs e.1 e.2
          · have he2 : e = (e.1, e.2) := rfl
            rw [← he2]; exact he
          · exact hk0
          · have hlp : 0 < e.1.length := List.length_pos.mpr hfp
            rw [List.dropLast_eq_take, List.length_take] at hkl
            omega
        · rw [List.dropLast_eq_take, List.take_take]
          have hmin : min k (e.1.length - 1) = k := by
            rw [List.dropLast_eq_take, List.length_take] at hkl
            omega
          rw [hmin]
    · -- ancestor of a backed-up subdirectory
      rcases hsplit d q h with h2 | h2 | ⟨k, hk0, hkl, rfl⟩
      · exact Or.inr (Or.inl h2)
      · exact Or.inl h2
      · exact Or.inr (Or.inr ⟨d.take k,
          treeDirs_prefix_dir cs d hd k hk0 hkl, rfl⟩)
  · rintro (h | h | ⟨d, hd, rfl⟩)
    · exact Or.inl (Or.inl (Or.inl h))
    · subst h
      exact Or.inl (Or.inl (Or.inr (self_mem_ancestors q hroot)))
    · refine Or.inr ⟨d, hd, self_mem_ancestors _ ?_⟩
      intro hc
      rw [List.append_eq_nil] at hc
      exact hroot hc.1

theorem restore_file_roundtrip (p : FilePath) (bts : List Nat) (st0 : FsState)
    (hpne : p ≠ []) (hpar : p.dropLast ∈ st0.dirs)
    (hpmem : getAssoc p st0.files = some bts) :
    (restoreDeletedPath p false (some bts) none (removeFile p st0)).dirs
      = st0.dirs ∧
    ∀ q, getAssoc q
        (restoreDeletedPath p false (some bts) none (removeFile p st0)).files
      = getAssoc q st0.files := by
  rw [restoreDeletedPath_file, pathParent_of_ne_nil p hpne]
  have hdirs : (removeFile p st0).dirs = st0.dirs := rfl
  dsimp only
  rw [hdirs, if_pos (decide_eq_true hpar)]
  constructor
  · exact hdirs
  · intro q
    show getAssoc q (setAssoc p bts (removeFile p st0).files) = _
    have hfilt : (removeFile p st0).files =
        st0.files.filter (fun e => decide (e.1 ≠ p)) := rfl
    have hnop : ∀ e ∈ (removeFile p st0).files, e.1 ≠ p := by
      intro e he
      rw [hfilt] at he
      exact of_decide_eq_true (List.mem_filter.mp he).2
    rw [setAssoc_of_not_mem _ _ _ hnop]
    by_cases hq : q = p
    · subst hq
      rw [getAssoc_append_right _ _ _ hnop, hpmem, getAssoc_cons, if_pos rfl]
    · rw [getAssoc_append, hfilt, getAssoc_filter_ne _ _ _ hq]
      cases hget : getAssoc q st0.files with
      | none =>
        show getAssoc q [(p, bts)] = none
        rw [getAssoc_cons, if_neg (fun hc => hq hc.symm)]
        rfl
      | some v => rfl

instance (root q : FilePath) : Decidable (underRoot root q) :=
  inferInstanceAs (Decidable (q.take root.length = root))

/-- C3 (confirmed): the delete-then-undo round trip restores the
filesystem state from before the delete.  For a directory at `root` with
subtree `cs` sitting on an ambient state `st0` (which holds nothing under
`root` and holds every proper ancestor of `root`), `remove_dir_all`
yields exactly `st0`, and `restore_deleted_path` applied to the recorded
`DirBackup` rebuilds the file map exactly — every file byte-identical at
its relative path — and restores precisely the original directory set,
every subdirectory of `DirBackup.dirs` (empty ones included) being
recreated.  For a file `p` whose saved bytes are `bts`, delete-then-undo
leaves the directory set unchanged and restores every lookup. -/
theorem delete_undo_roundtrip (root : FilePath) (cs : List (Name × FsTree))
    (st0 : FsState) (p : FilePath) (bts : List Nat)
    (hroot : root ≠ []) (hwf : WfTree (FsTree.dir cs))
    (hambF : ∀ e ∈ st0.files, ¬ underRoot root e.1)
    (hambD : ∀ q ∈ st0.dirs, ¬ underRoot root q)
    (hanc : ∀ k, 0 < k → k < root.length → root.take k ∈ st0.dirs)
    (hpne : p ≠ []) (hpar : p.dropLast ∈ st0.dirs)
    (hpmem : getAssoc p st0.files = some bts) :
    removeSubtree root (adjoinSubtree root cs st0) = st0 ∧
    (restoreDeletedPath root true none (some (backupDir cs))
        (removeSubtree root (adjoinSubtree root cs st0))).files =
      (adjoinSubtree root cs st0).files ∧
    (∀ q, q ∈ (restoreDeletedPath root true none (some (backupDir cs))
        (removeSubtree root (adjoinSubtree root cs st0))).dirs ↔
      q ∈ (adjoinSubtree root cs st0).dirs) ∧
    (restoreDeletedPath p false (some bts) none (removeFile p st0)).dirs
      = st0.dirs ∧
    (∀ q, getAssoc q (restoreDeletedPath p false (some bts) none
        (removeFile p st0)).files = getAssoc q st0.files) := by
  have hA := removeSubtree_adjoinSubtree root cs st0 hambF hambD
  refine ⟨hA, ?_, ?_, ?_, ?_⟩
  · rw [hA]
    exact restore_dir_files root cs st0 hwf hambF
  · intro q
    rw [hA]
    exact restore_dir_dirs root cs st0 hroot hanc q
  · exact (restore_file_roundtrip p bts st0 hpne hpar hpmem).1
  · exact (restore_file_roundtrip p bts st0 hpne hpar hpmem).2

/-- Witness for `delete_undo_roundtrip`: a directory `r/` holding an empty
subdirectory `d/` and a file `f` with bytes `[7]`, on an ambient state
with directories `""` and `z` and a file `a` with bytes `[9]`. -/
theorem delete_undo_roundtrip_witness :
    (let root : FilePath := [['r']]
     let cs : List (Name × FsTree) :=
       [(['d'], FsTree.dir []), (['f'], FsTree.file [7])]
     let st0 : FsState := { dirs := [[], [['z']]], files := [([['a']], [9])] }
     let p : FilePath := [['a']]
     root ≠ [] ∧ WfTree (FsTree.dir cs) ∧
     (∀ e ∈ st0.files, ¬ underRoot root e.1) ∧
     (∀ q ∈ st0.dirs, ¬ underRoot root q) ∧
     (∀ k, 0 < k → k < root.length → root.take k ∈ st0.dirs) ∧
     p ≠ [] ∧ p.dropLast ∈ st0.dirs ∧
     getAssoc p st0.files = some [9] ∧
     (removeSubtree root (adjoinSubtree root cs st0) = st0 ∧
      (restoreDeletedPath root true none (some (backupDir cs))
          (removeSubtree root (adjoinSubtree root cs st0))).files =
        (adjoinSubtree root cs st0).files ∧
      (∀ q, q ∈ (restoreDeletedPath root true none (some (backupDir cs))
          (removeSubtree root (adjoinSubtree root cs st0))).dirs ↔
        q ∈ (adjoinSubtree root cs st0).dirs) ∧
      (restoreDeletedPath p false (some [9]) none (removeFile p st0)).dirs
        = st0.dirs ∧
      (∀ q, getAssoc q (restoreDeletedPath p false (some [9]) none
          (removeFile p st0)).files = getAssoc q st0.files))) := by
  have hwf : WfTree (FsTree.dir
      [((['d'] : Name), FsTree.dir []), (['f'], FsTree.file [7])]) := by
    refine WfTree.dir _ (by decide) ?_
    intro e he
    fin_cases he
    · exact WfTree.dir [] (by decide) (fun e2 he2 => absurd he2 (by simp))
    · exact WfTree.file [7]
  refine ⟨by decide, hwf, by decide, by decide, ?_, by decide, by decide,
    by decide, ?_⟩
  · intro k hk0 hk1
    simp at hk1
    omega
  · exact delete_undo_roundtrip [['r']]
      [(['d'], FsTree.dir []), (['f'], FsTree.file [7])]
      { dirs := [[], [['z']]], files := [([['a']], [9])] } [['a']] [9]
      (by decide) hwf (by decide) (by decide)
      (by intro k hk0 hk1; simp at hk1; omega)
      (by decide) (by decide) (by decide)
